import Mathlib

/-!
# Verification of the cache2go LFU cache engine

A shallow embedding of the LFU cache from `lfu.go` (plus the process-wide
registry from the unnamed registry file) of the jayesslin/cache2go
repository, together with theorems settling the frozen claims about it.

Modelling conventions:
* Go maps (`cache.items`, `cache.keyToListElement`, `cache.frequencies`,
  the registry) are association lists with unique keys; `alookup`, `aset`
  and `aerase` mirror Go map read, write and delete.
* A `container/list` list of a frequency node is a Lean `List` of elements,
  front at the head.  A Go `*list.Element` is identified by a globally
  unique id paired with its stored value (`Elem K := Nat × K`); the cache
  carries a `nextId` allocator.  Go's `(*List).Remove(e)` removes `e` only
  when `e` belongs to the receiver list; since ids are unique, `List.erase`
  of the element value models this exactly (erasing an element from a list
  it does not belong to is a no-op).
* Callback lists hold opaque Go closures; the model keeps only how many
  callbacks are registered (`addedItem`, `aboutToDeleteItem` counts) and
  every operation returns the ordered log of callback invocations it
  performs (`Event`), one event per registered callback per dispatch.
* `sync.RWMutex` locking, the logger, and wall-clock timestamps
  (`accessedOn`, `createdOn`) are concurrency / IO / real-time artefacts
  with no bearing on the embedded claims and are not modelled; the
  operations are the sequential bodies of the Go methods.
* Go `int` sizes are modelled as `Int` (the `size` counter is decremented
  on paths that can drive it below zero); capacities and frequencies,
  which are only ever non-negative, are `Nat`.
-/

set_option linter.unusedSectionVars false

namespace Cache2go

/-! ## Association lists modelling Go maps -/

section AList

variable {K : Type} {A : Type} [DecidableEq K]

/-- Go map read: first binding of `k`, if any. -/
def alookup : List (K × A) → K → Option A
  | [], _ => none
  | (k', v) :: rest, k => if k = k' then some v else alookup rest k

/-- Go map write: replace the binding of `k`, or append a fresh one. -/
def aset : List (K × A) → K → A → List (K × A)
  | [], k, v => [(k, v)]
  | (k', v') :: rest, k, v =>
    if k = k' then (k, v) :: rest else (k', v') :: aset rest k v

/-- Go map delete: drop the binding of `k`, if any. -/
def aerase : List (K × A) → K → List (K × A)
  | [], _ => []
  | (k', v') :: rest, k => if k = k' then rest else (k', v') :: aerase rest k

/-- The keys of an association list. -/
def akeys (m : List (K × A)) : List K := m.map Prod.fst

@[simp] theorem akeys_nil : akeys ([] : List (K × A)) = [] := rfl

@[simp] theorem akeys_cons (p : K × A) (rest : List (K × A)) :
    akeys (p :: rest) = p.1 :: akeys rest := rfl

@[simp] theorem alookup_nil (k : K) : alookup ([] : List (K × A)) k = none := rfl

theorem alookup_cons (k' : K) (v : A) (rest : List (K × A)) (k : K) :
    alookup ((k', v) :: rest) k = if k = k' then some v else alookup rest k := rfl

@[simp] theorem alookup_aset_self (m : List (K × A)) (k : K) (v : A) :
    alookup (aset m k v) k = some v := by
  induction m with
  | nil => simp [aset, alookup]
  | cons p rest ih =>
    by_cases h : k = p.1
    · simp [aset, alookup, h]
    · simp [aset, alookup, h, ih]

theorem alookup_aset_ne (m : List (K × A)) {k k' : K} (v : A) (h : k' ≠ k) :
    alookup (aset m k v) k' = alookup m k' := by
  induction m with
  | nil => simp [aset, alookup, h]
  | cons p rest ih =>
    by_cases hk : k = p.1
    · subst hk
      simp [aset, alookup, h, ih]
    · by_cases hk' : k' = p.1
      · simp [aset, alookup, hk, hk']
      · simp [aset, alookup, hk, hk', ih]

theorem alookup_aerase_ne (m : List (K × A)) {k k' : K} (h : k' ≠ k) :
    alookup (aerase m k) k' = alookup m k' := by
  induction m with
  | nil => simp [aerase]
  | cons p rest ih =>
    by_cases hk : k = p.1
    · subst hk
      simp [aerase, alookup, h]
    · by_cases hk' : k' = p.1
      · simp [aerase, alookup, hk, hk']
      · simp [aerase, alookup, hk, hk', ih]

theorem mem_akeys_iff_alookup (m : List (K × A)) (k : K) :
    k ∈ akeys m ↔ (alookup m k).isSome := by
  induction m with
  | nil => simp
  | cons p rest ih =>
    by_cases hk : k = p.1
    · simp [alookup, hk]
    · rw [akeys_cons, List.mem_cons]
      rw [show alookup (p :: rest) k = alookup rest k from by
        cases p; simp [alookup, hk]]
      constructor
      · intro h
        rcases h with h | h
        · exact absurd h hk
        · exact ih.mp h
      · intro h
        exact Or.inr (ih.mpr h)

theorem akeys_aset (m : List (K × A)) (k : K) (v : A) :
    akeys (aset m k v) =
      if (alookup m k).isSome then akeys m else akeys m ++ [k] := by
  induction m with
  | nil => simp [aset, alookup, akeys]
  | cons p rest ih =>
    cases p with
    | mk pk pv =>
      by_cases hk : k = pk
      · subst hk
        simp [aset, alookup]
      · rw [show aset ((pk, pv) :: rest) k v = (pk, pv) :: aset rest k v from by
          simp [aset, hk]]
        rw [show alookup ((pk, pv) :: rest) k = alookup rest k from by
          simp [alookup, hk]]
        by_cases hs : (alookup rest k).isSome
        · simp [hs] at ih
          simp [hs, ih]
        · simp [hs] at ih
          simp [hs, ih]

theorem nodup_akeys_aset (m : List (K × A)) (k : K) (v : A)
    (h : (akeys m).Nodup) : (akeys (aset m k v)).Nodup := by
  rw [akeys_aset]
  by_cases hs : (alookup m k).isSome
  · simpa [hs] using h
  · rw [if_neg hs]
    rw [List.nodup_append]
    refine ⟨h, List.nodup_singleton k, ?_⟩
    intro x hx hx'
    simp at hx'
    subst hx'
    exact hs ((mem_akeys_iff_alookup m x).mp hx)

theorem sublist_aerase (m : List (K × A)) (k : K) : (aerase m k).Sublist m := by
  induction m with
  | nil => simp [aerase]
  | cons p rest ih =>
    by_cases h : k = p.1
    · simp only [aerase, h, if_pos rfl]
      exact List.sublist_cons_self p rest
    · simpa [aerase, h] using List.Sublist.cons₂ p ih

theorem nodup_akeys_aerase (m : List (K × A)) (k : K)
    (h : (akeys m).Nodup) : (akeys (aerase m k)).Nodup :=
  List.Nodup.sublist (List.Sublist.map Prod.fst (sublist_aerase m k)) h

theorem alookup_aerase_self (m : List (K × A)) (k : K)
    (h : (akeys m).Nodup) : alookup (aerase m k) k = none := by
  induction m with
  | nil => simp [aerase]
  | cons p rest ih =>
    cases p with
    | mk pk pv =>
      rw [akeys_cons, List.nodup_cons] at h
      by_cases hk : k = pk
      · rw [show aerase ((pk, pv) :: rest) k = rest from by simp [aerase, hk]]
        subst hk
        cases hcase : alookup rest k with
        | none => rfl
        | some v =>
          exact absurd ((mem_akeys_iff_alookup rest k).mpr (by simp [hcase]))
            (by simpa using h.1)
      · rw [show aerase ((pk, pv) :: rest) k = (pk, pv) :: aerase rest k from by
          simp [aerase, hk]]
        rw [show alookup ((pk, pv) :: aerase rest k) k = alookup (aerase rest k) k from by
          simp [alookup, hk]]
        exact ih h.2

theorem length_aset_of_lookup_some (m : List (K × A)) (k : K) (v : A)
    (h : (alookup m k).isSome) : (aset m k v).length = m.length := by
  induction m with
  | nil => simp [alookup] at h
  | cons p rest ih =>
    by_cases hk : k = p.1
    · simp [aset, hk]
    · cases p
      simp [alookup, hk] at h
      simp [aset, hk, ih (by simp [h])]

theorem length_aset_of_lookup_none (m : List (K × A)) (k : K) (v : A)
    (h : alookup m k = none) : (aset m k v).length = m.length + 1 := by
  induction m with
  | nil => simp [aset]
  | cons p rest ih =>
    by_cases hk : k = p.1
    · cases p; simp [alookup, hk] at h
    · cases p
      simp [alookup, hk] at h
      simp [aset, hk, ih h]

theorem length_aerase_of_lookup_some (m : List (K × A)) (k : K)
    (h : (alookup m k).isSome) : (aerase m k).length + 1 = m.length := by
  induction m with
  | nil => simp [alookup] at h
  | cons p rest ih =>
    by_cases hk : k = p.1
    · simp [aerase, hk]
    · cases p
      simp [alookup, hk] at h
      simp [aerase, hk, ih (by simp [h])]

theorem aerase_of_lookup_none (m : List (K × A)) (k : K)
    (h : alookup m k = none) : aerase m k = m := by
  induction m with
  | nil => simp [aerase]
  | cons p rest ih =>
    by_cases hk : k = p.1
    · cases p; simp [alookup, hk] at h
    · cases p
      simp [alookup, hk] at h
      simp [aerase, hk, ih h]

theorem aset_self_of_lookup (m : List (K × A)) (k : K) (v : A)
    (h : alookup m k = some v) : aset m k v = m := by
  induction m with
  | nil => simp [alookup] at h
  | cons p rest ih =>
    cases p with
    | mk pk pv =>
      by_cases hk : k = pk
      · subst hk
        simp [alookup] at h
        subst h
        simp [aset]
      · simp [alookup, hk] at h
        simp [aset, hk, ih h]

theorem alookup_mem (m : List (K × A)) (k : K) (v : A)
    (h : alookup m k = some v) : (k, v) ∈ m := by
  induction m with
  | nil => simp [alookup] at h
  | cons p rest ih =>
    cases p with
    | mk pk pv =>
      by_cases hk : k = pk
      · subst hk
        simp [alookup] at h
        subst h
        exact List.mem_cons_self _ _
      · simp [alookup, hk] at h
        exact List.mem_cons_of_mem _ (ih h)

theorem aset_entries (m : List (K × A)) (k : K) (v : A) :
    ∀ p ∈ aset m k v, p = (k, v) ∨ p ∈ m := by
  induction m with
  | nil =>
    intro p hp
    simp [aset] at hp
    exact Or.inl hp
  | cons q rest ih =>
    cases q with
    | mk qk qv =>
      intro p hp
      by_cases hk : k = qk
      · rw [show aset ((qk, qv) :: rest) k v = (k, v) :: rest from by
          simp [aset, hk]] at hp
        rcases List.mem_cons.mp hp with hp | hp
        · exact Or.inl hp
        · exact Or.inr (List.mem_cons_of_mem _ hp)
      · rw [show aset ((qk, qv) :: rest) k v = (qk, qv) :: aset rest k v from by
          simp [aset, hk]] at hp
        rcases List.mem_cons.mp hp with hp | hp
        · exact Or.inr (by simp [hp])
        · rcases ih p hp with h' | h'
          · exact Or.inl h'
          · exact Or.inr (List.mem_cons_of_mem _ h')

end AList

/-! ## The Entry type (`CacheItem`) -/

/-- Modelled from the spec: the repository's `CacheItem` type is not among
the sources (only `lfu.go`, its tests and callers are); §2/§3 of the spec
describe the Entry record as holding a key, a payload, an optional
lifespan, a last-touch timestamp and an access counter.  The timestamps
are wall-clock artefacts and are omitted.  The spec's Insert contract
says a fresh Entry carries "access counter 1", but under that reading the
engine contradicts the spec's own §8 eviction property and the
repository's tests (`TestLFUEviction`, `TestLFUMostAccessed` in
`lfu_test.go`): those pass exactly when `NewCacheItem` starts the counter
at `0` and `KeepAlive` increments it by one, which is therefore what this
model uses.  A resident key then always sits in the bucket numbered
`accessCount + 1`. -/
structure CacheItem (K V : Type) where
  key : K
  lifeSpan : Nat
  data : V
  accessCount : Nat
  deriving DecidableEq, Repr

/-- Modelled from the spec: `NewCacheItem` creates an Entry for the given
key, lifespan and payload; see the comment on `CacheItem` for why the
access counter starts at `0`. -/
def NewCacheItem {K V : Type} (key : K) (lifeSpan : Nat) (data : V) :
    CacheItem K V :=
  { key := key, lifeSpan := lifeSpan, data := data, accessCount := 0 }

/-- Modelled from the spec: `KeepAlive` is the Entry-level part of a touch
(§3: "counter increment, timestamp refresh"); the timestamp is omitted. -/
def KeepAlive {K V : Type} (item : CacheItem K V) : CacheItem K V :=
  { item with accessCount := item.accessCount + 1 }

/-- `AccessCount` returns the access counter of an Entry. -/
def AccessCount {K V : Type} (item : CacheItem K V) : Nat :=
  item.accessCount

/-! ## The LFU cache state -/

/-- A Go `*list.Element`: a globally unique identity paired with the
stored value (the cache key). -/
abbrev Elem (K : Type) := Nat × K

/-- `LFUNode` represents a frequency node in the LFU cache
(lfu.go 17-21). -/
structure LFUNode (K : Type) where
  frequency : Nat
  items : List (Elem K)
  deriving DecidableEq

/-- One callback invocation, as logged by the operations: `added` is an
"added item" callback receiving the new Entry, `aboutToDelete` is an
"about to delete" callback receiving the Entry passed by the engine
(`none` models Go's nil pointer, which the engine passes when the evicted
list element's key is no longer in the primary map). -/
inductive Event (K V : Type) where
  | added (item : CacheItem K V)
  | aboutToDelete (item : Option (CacheItem K V))
  deriving DecidableEq

/-- `LFUCache` implements the Least Frequently Used cache (lfu.go 24-52).
The callback slices are modelled by how many callbacks they hold; the
`nextId` field allocates fresh list-element identities. -/
structure LFUCache (K V : Type) where
  name : String
  capacity : Nat
  size : Int
  items : List (K × CacheItem K V)
  keyToListElement : List (K × Elem K)
  frequencies : List (Nat × LFUNode K)
  minFrequency : Nat
  nextId : Nat
  loadData : Option (K → Option (CacheItem K V))
  addedItem : Nat
  aboutToDeleteItem : Nat

/-- Errors returned by the cache (errors.go of the upstream library; only
these two are used by `lfu.go`). -/
inductive CacheError where
  | keyNotFound
  | keyNotFoundOrLoadable
  deriving DecidableEq

section Ops

variable {K V : Type} [DecidableEq K]

/-- `NewLFUCache` creates a new LFU cache with the specified capacity
(lfu.go 55-65). -/
def NewLFUCache (name : String) (capacity : Nat) : LFUCache K V :=
  { name := name
    capacity := capacity
    size := 0
    items := []
    keyToListElement := []
    frequencies := []
    minFrequency := 0
    nextId := 0
    loadData := none
    addedItem := 0
    aboutToDeleteItem := 0 }

/-- The items of the frequency bucket for `f`, `[]` when the bucket does
not exist. -/
def bucketAt (c : LFUCache K V) (f : Nat) : List (Elem K) :=
  match alookup c.frequencies f with
  | some node => node.items
  | none => []

/-- `updateFrequency` updates the frequency of an item (lfu.go 68-91).
Callers only invoke it on resident keys; for an absent key (where Go
would dereference nil) the state is returned unchanged. -/
def updateFrequency (c : LFUCache K V) (key : K) : LFUCache K V :=
  match alookup c.items key, alookup c.keyToListElement key with
  | some item, some element =>
    let oldFreq := AccessCount item
    let newFreq := oldFreq + 1
    -- Remove from old frequency list (lfu.go 75-80)
    let c1 :=
      match alookup c.frequencies oldFreq with
      | some oldNode =>
        let remaining := oldNode.items.erase element
        let c' := { c with
          frequencies := aset c.frequencies oldFreq { oldNode with items := remaining } }
        if remaining.length = 0 ∧ oldFreq = c.minFrequency then
          { c' with minFrequency := c.minFrequency + 1 }
        else c'
      | none => c
    -- Add to new frequency list, creating it if absent (lfu.go 83-90)
    let node :=
      (alookup c1.frequencies newFreq).getD { frequency := newFreq, items := [] }
    let newElement : Elem K := (c1.nextId, key)
    { c1 with
      frequencies := aset c1.frequencies newFreq { node with items := newElement :: node.items }
      keyToListElement := aset c1.keyToListElement key newElement
      nextId := c1.nextId + 1 }
  | _, _ => c

/-- `evictLFU` removes the least frequently used item (lfu.go 94-128),
returning the new state and the log of "about to delete" callback
invocations. -/
def evictLFU (c : LFUCache K V) : LFUCache K V × List (Event K V) :=
  if c.size = 0 then (c, [])
  else
    match alookup c.frequencies c.minFrequency with
    | none => (c, [])
    | some minNode =>
      -- the least recently used element among minimum frequency (lfu.go 106)
      match minNode.items.getLast? with
      | none => (c, [])  -- minNode.items.Len() == 0 (lfu.go 101)
      | some element =>
        let key := element.2
        let c1 := { c with
          frequencies :=
            aset c.frequencies c.minFrequency
              { minNode with items := minNode.items.erase element } }
        -- the item is read before deletion for the callbacks (lfu.go 113)
        let item := alookup c1.items key
        (({ c1 with
            items := aerase c1.items key
            keyToListElement := aerase c1.keyToListElement key
            size := c1.size - 1 }),
         List.replicate c1.aboutToDeleteItem (Event.aboutToDelete item))

/-- The shared fresh-insert block: evict when at capacity, create the
binding, push the key onto the front of the frequency-1 bucket (creating
it if absent) and reset `minFrequency` to 1.  Go inlines this block twice
(lfu.go 149-168 in `Add` and lfu.go 200-216 in `Value`). -/
def insertNew (c : LFUCache K V) (key : K) (item : CacheItem K V) :
    LFUCache K V × List (Event K V) :=
  -- Evict if at capacity (lfu.go 150-152)
  let evicted := if (c.capacity : Int) ≤ c.size then evictLFU c else (c, [])
  let c1 := evicted.1
  let c2 := { c1 with items := aset c1.items key item, size := c1.size + 1 }
  -- Add to frequency 1 list, creating it if absent (lfu.go 160-166)
  let node :=
    (alookup c2.frequencies 1).getD { frequency := 1, items := [] }
  let element : Elem K := (c2.nextId, key)
  ({ c2 with
      frequencies := aset c2.frequencies 1 { node with items := element :: node.items }
      keyToListElement := aset c2.keyToListElement key element
      nextId := c2.nextId + 1
      minFrequency := 1 },
   evicted.2)

/-- `Add` adds a key/value pair to the LFU cache (lfu.go 131-180),
returning the new state, the returned item, and the callback log. -/
def Add (c : LFUCache K V) (key : K) (lifeSpan : Nat) (data : V) :
    LFUCache K V × CacheItem K V × List (Event K V) :=
  match alookup c.items key with
  | some existingItem =>
    -- Update existing item (lfu.go 136-147)
    let updated := { existingItem with
      data := data, lifeSpan := lifeSpan,
      accessCount := existingItem.accessCount + 1 }
    let c1 := { c with items := aset c.items key updated }
    (updateFrequency c1 key, updated, [])
  | none =>
    let item := NewCacheItem key lifeSpan data
    let inserted := insertNew c key item
    -- Trigger the added-item callbacks (lfu.go 173-177)
    (inserted.1, item,
     inserted.2 ++ List.replicate inserted.1.addedItem (Event.added item))

/-- `Value` returns an item from the LFU cache and updates its frequency
(lfu.go 183-224).  The unlock/relock window around the loader call is a
concurrency artefact with no sequential effect. -/
def Value (c : LFUCache K V) (key : K) :
    LFUCache K V × Except CacheError (CacheItem K V) × List (Event K V) :=
  match alookup c.items key with
  | some item =>
    -- Update access info (lfu.go 189-190)
    let item1 := KeepAlive item
    let c1 := { c with items := aset c.items key item1 }
    (updateFrequency c1 key, Except.ok item1, [])
  | none =>
    match c.loadData with
    | none => (c, Except.error CacheError.keyNotFound, [])
    | some loader =>
      match loader key with
      | none => (c, Except.error CacheError.keyNotFoundOrLoadable, [])
      | some item =>
        -- Add the loaded item to cache (lfu.go 199-218)
        let inserted := insertNew c key item
        (inserted.1, Except.ok item, inserted.2)

/-- `Delete` removes an item from the LFU cache (lfu.go 227-260).  The
nested match mirrors the Go nil-map semantics: when the frequency node
for `AccessCount` does not exist the bucket bookkeeping is skipped. -/
def Delete (c : LFUCache K V) (key : K) :
    LFUCache K V × Except CacheError (CacheItem K V) × List (Event K V) :=
  match alookup c.items key with
  | none => (c, Except.error CacheError.keyNotFound, [])
  | some item =>
    -- Remove from frequency list (lfu.go 236-244)
    let freq := AccessCount item
    let c1 :=
      match alookup c.keyToListElement key, alookup c.frequencies freq with
      | some element, some node =>
        let remaining := node.items.erase element
        let c' := { c with
          frequencies := aset c.frequencies freq { node with items := remaining } }
        if remaining.length = 0 ∧ freq = c.minFrequency then
          { c' with minFrequency := c.minFrequency + 1 }
        else c'
      | _, _ => c
    (({ c1 with
        items := aerase c1.items key
        keyToListElement := aerase c1.keyToListElement key
        size := c1.size - 1 }),
     Except.ok item,
     List.replicate c.aboutToDeleteItem (Event.aboutToDelete (some item)))

/-- `Exists` checks for a key without updating frequency (lfu.go 263-268);
named `ExistsKey` here because `Exists` is Lean's existential. -/
def ExistsKey (c : LFUCache K V) (key : K) : Bool :=
  (alookup c.items key).isSome

/-- `Count` returns the number of items in the LFU cache (lfu.go 271-275). -/
def Count (c : LFUCache K V) : Int :=
  c.size

/-- `Capacity` returns the maximum capacity (lfu.go 278-280). -/
def Capacity (c : LFUCache K V) : Nat :=
  c.capacity

/-- `Flush` removes all items from the LFU cache (lfu.go 283-303),
returning the callback log (one "about to delete" invocation per
callback per item). -/
def Flush (c : LFUCache K V) : LFUCache K V × List (Event K V) :=
  ({ c with
      items := []
      keyToListElement := []
      frequencies := []
      size := 0
      minFrequency := 0 },
   c.items.flatMap fun p =>
     List.replicate c.aboutToDeleteItem (Event.aboutToDelete (some p.2)))

/-- `SetDataLoader` configures a data-loader callback (lfu.go 306-310). -/
def SetDataLoader (c : LFUCache K V) (f : Option (K → Option (CacheItem K V))) :
    LFUCache K V :=
  { c with loadData := f }

/-- `SetAddedItemCallback` clears prior registrations and registers one
callback (lfu.go 313-320). -/
def SetAddedItemCallback (c : LFUCache K V) : LFUCache K V :=
  { c with addedItem := 1 }

/-- `AddAddedItemCallback` appends a callback (lfu.go 323-327). -/
def AddAddedItemCallback (c : LFUCache K V) : LFUCache K V :=
  { c with addedItem := c.addedItem + 1 }

/-- `RemoveAddedItemCallbacks` empties the added-item callback queue
(lfu.go 330-334). -/
def RemoveAddedItemCallbacks (c : LFUCache K V) : LFUCache K V :=
  { c with addedItem := 0 }

/-- `SetAboutToDeleteItemCallback` clears prior registrations and
registers one callback (lfu.go 337-344). -/
def SetAboutToDeleteItemCallback (c : LFUCache K V) : LFUCache K V :=
  { c with aboutToDeleteItem := 1 }

/-- `AddAboutToDeleteItemCallback` appends a callback (lfu.go 347-351). -/
def AddAboutToDeleteItemCallback (c : LFUCache K V) : LFUCache K V :=
  { c with aboutToDeleteItem := c.aboutToDeleteItem + 1 }

/-- `RemoveAboutToDeleteItemCallback` empties the about-to-delete
callback queue (lfu.go 354-358). -/
def RemoveAboutToDeleteItemCallback (c : LFUCache K V) : LFUCache K V :=
  { c with aboutToDeleteItem := 0 }

/-- Inner loop of `MostAccessed`: collect up to `rem` resident items from
one bucket, front to back, skipping keys no longer in the primary map
(lfu.go 386-392). -/
def bucketTake (c : LFUCache K V) : List (Elem K) → Nat → List (CacheItem K V)
  | _, 0 => []
  | [], _ => []
  | e :: rest, rem + 1 =>
    match alookup c.items e.2 with
    | some item => item :: bucketTake c rest rem
    | none => bucketTake c rest (rem + 1)

/-- Outer loop of `MostAccessed`: walk candidate frequencies downward
(lfu.go 384-394). -/
def mostAccessedAux (c : LFUCache K V) : Nat → Nat → List (CacheItem K V)
  | 0, _ => []
  | _ + 1, 0 => []
  | f + 1, rem =>
    match alookup c.frequencies (f + 1) with
    | some node =>
      let got := bucketTake c node.items rem
      got ++ mostAccessedAux c f (rem - got.length)
    | none => mostAccessedAux c f rem

/-- `MostAccessed` returns the most frequently accessed items
(lfu.go 376-397).  The walk starts from `len(cache.frequencies)`, the
COUNT of frequency levels ever created, exactly as the Go code does.
The Go `count` parameter is an `int64`; a non-positive count returns
nothing, so it is modelled as `Nat`. -/
def MostAccessed (c : LFUCache K V) (count : Nat) : List (CacheItem K V) :=
  mostAccessedAux c c.frequencies.length count

/-- `Foreach` applies a function to every key/item pair (lfu.go 400-407);
modelled as returning the pairs the Go code would traverse. -/
def ForeachPairs (c : LFUCache K V) : List (K × CacheItem K V) :=
  c.items

/-- The process-wide LFU registry function (registry source, lines 47-64):
return the existing cache with the given name, or create one with the
requested capacity.  In Go the function is itself named `LFUCache`, which
collides with the struct name, so it is `LFUCacheByName` here. -/
def LFUCacheByName (reg : List (String × LFUCache K V)) (name : String)
    (capacity : Nat) : List (String × LFUCache K V) × LFUCache K V :=
  match alookup reg name with
  | some c => (reg, c)
  | none =>
    let c : LFUCache K V := NewLFUCache name capacity
    (aset reg name c, c)

end Ops

/-! ## Operation sequences and reachable states -/

/-- A public operation on the cache, used to describe reachable states. -/
inductive Op (K V : Type) where
  | add (key : K) (lifeSpan : Nat) (data : V)
  | value (key : K)
  | delete (key : K)
  | flush
  | setLoader (f : Option (K → Option (CacheItem K V)))
  | setAddedCallback
  | addAddedCallback
  | removeAddedCallbacks
  | setDeleteCallback
  | addDeleteCallback
  | removeDeleteCallbacks

section Reach

variable {K V : Type} [DecidableEq K]

/-- The state after one public operation (return values discarded). -/
def applyOp (c : LFUCache K V) : Op K V → LFUCache K V
  | .add k l d => (Add c k l d).1
  | .value k => (Value c k).1
  | .delete k => (Delete c k).1
  | .flush => (Flush c).1
  | .setLoader f => SetDataLoader c f
  | .setAddedCallback => SetAddedItemCallback c
  | .addAddedCallback => AddAddedItemCallback c
  | .removeAddedCallbacks => RemoveAddedItemCallbacks c
  | .setDeleteCallback => SetAboutToDeleteItemCallback c
  | .addDeleteCallback => AddAboutToDeleteItemCallback c
  | .removeDeleteCallbacks => RemoveAboutToDeleteItemCallback c

/-- The state after a sequence of public operations. -/
def applyOps (c : LFUCache K V) (ops : List (Op K V)) : LFUCache K V :=
  ops.foldl applyOp c

/-- A data loader that produces fresh entries (access counter 0), as the
spec assumes of loaders ("returns either a fully-formed Entry"; a loaded
entry is inserted as a fresh frequency-1 entry). -/
def FreshLoader (f : K → Option (CacheItem K V)) : Prop :=
  ∀ k it, f k = some it → it.accessCount = 0

/-- An operation whose loader argument, if any, is fresh. -/
def GoodOp : Op K V → Prop
  | .setLoader (some f) => FreshLoader f
  | _ => True

/-- All loaders installed along the sequence are fresh. -/
def GoodOps (ops : List (Op K V)) : Prop := ∀ op ∈ ops, GoodOp op

/-- No `Delete` occurs in the sequence. -/
def DeleteFree (ops : List (Op K V)) : Prop := ∀ k, Op.delete k ∉ ops

/-- A cache state reachable from a fresh cache by public operations
(with fresh loaders, see `FreshLoader`). -/
def Reachable (c : LFUCache K V) : Prop :=
  ∃ name capacity ops, GoodOps ops ∧
    c = applyOps (NewLFUCache name capacity) ops

/-- A cache state reachable without any `Delete`. -/
def CleanReachable (c : LFUCache K V) : Prop :=
  ∃ name capacity ops, GoodOps ops ∧ DeleteFree ops ∧
    c = applyOps (NewLFUCache name capacity) ops

end Reach

/-! ## The structural invariant of reachable states -/

section Inv

variable {K V : Type} [DecidableEq K]

/-- The part of the structural invariant that survives a bare `evictLFU`
(which can empty the minimum bucket without advancing `minFrequency`;
the insert that always follows it inside `Add`/`Value` restores the
rest). -/
structure InvE (c : LFUCache K V) : Prop where
  wfItems : (akeys c.items).Nodup
  wfK2E : (akeys c.keyToListElement).Nodup
  wfFreq : (akeys c.frequencies).Nodup
  freqPos : ∀ f node, alookup c.frequencies f = some node → 1 ≤ f
  idsNodupIn : ∀ f node, alookup c.frequencies f = some node →
    (node.items.map Prod.fst).Nodup
  idsDisjoint : ∀ f g node node' e e', f ≠ g →
    alookup c.frequencies f = some node →
    alookup c.frequencies g = some node' →
    e ∈ node.items → e' ∈ node'.items → e.1 ≠ e'.1
  idsFresh : ∀ f node e, alookup c.frequencies f = some node →
    e ∈ node.items → e.1 < c.nextId
  keysMatch : ∀ k, (alookup c.items k).isSome =
    (alookup c.keyToListElement k).isSome
  k2eVal : ∀ k e, alookup c.keyToListElement k = some e → e.2 = k
  resident : ∀ k it, alookup c.items k = some it → ∃ e node,
    alookup c.keyToListElement k = some e ∧
    alookup c.frequencies (it.accessCount + 1) = some node ∧
    e ∈ node.items
  minLe : ∀ f node, alookup c.frequencies f = some node →
    node.items ≠ [] → c.minFrequency ≤ f
  loaderGood : ∀ f, c.loadData = some f → FreshLoader f

/-- The full structural invariant of reachable states. -/
structure Inv (c : LFUCache K V) extends InvE c : Prop where
  minBucket : (∃ f node, alookup c.frequencies f = some node ∧ node.items ≠ []) →
    ∃ node', alookup c.frequencies c.minFrequency = some node' ∧ node'.items ≠ []
  sizeNonzero : c.size ≠ 0 →
    ∃ f node, alookup c.frequencies f = some node ∧ node.items ≠ []

end Inv

/-! ## Characterizations of the operations -/

section Spec

variable {K V : Type} [DecidableEq K]

/-- What `updateFrequency` does when the key is resident, its list
element is registered, and the bucket at its access count exists. -/
theorem updateFrequency_spec (c : LFUCache K V) (key : K)
    (item : CacheItem K V) (element : Elem K) (oldNode : LFUNode K)
    (hit : alookup c.items key = some item)
    (he : alookup c.keyToListElement key = some element)
    (hnode : alookup c.frequencies (AccessCount item) = some oldNode) :
    updateFrequency c key =
      (let oldFreq := AccessCount item
      let remaining := oldNode.items.erase element
      let freqs1 := aset c.frequencies oldFreq { oldNode with items := remaining }
      let minF' := if remaining.length = 0 ∧ oldFreq = c.minFrequency
                   then c.minFrequency + 1 else c.minFrequency
      let node := (alookup freqs1 (oldFreq + 1)).getD
                  { frequency := oldFreq + 1, items := [] }
      { c with
        frequencies := aset freqs1 (oldFreq + 1)
          { node with items := (c.nextId, key) :: node.items }
        keyToListElement := aset c.keyToListElement key (c.nextId, key)
        minFrequency := minF'
        nextId := c.nextId + 1 }) := by
  unfold updateFrequency
  rw [hit, he]
  dsimp only
  rw [hnode]
  dsimp only
  by_cases hcond : (oldNode.items.erase element).length = 0 ∧
      AccessCount item = c.minFrequency
  · simp only [if_pos hcond]
  · simp only [if_neg hcond]

/-- What `evictLFU` does on a state with non-zero size whose minimum
bucket exists and is non-empty. -/
theorem evictLFU_spec (c : LFUCache K V) (minNode : LFUNode K)
    (element : Elem K)
    (hsize : ¬ c.size = 0)
    (hmin : alookup c.frequencies c.minFrequency = some minNode)
    (hlast : minNode.items.getLast? = some element) :
    evictLFU c =
      ({ c with
          frequencies := aset c.frequencies c.minFrequency
            { minNode with items := minNode.items.erase element }
          items := aerase c.items element.2
          keyToListElement := aerase c.keyToListElement element.2
          size := c.size - 1 },
       List.replicate c.aboutToDeleteItem
         (Event.aboutToDelete (alookup c.items element.2))) := by
  unfold evictLFU
  rw [if_neg hsize, hmin]
  dsimp only
  rw [hlast]

@[simp] theorem evictLFU_size_zero (c : LFUCache K V) (h : c.size = 0) :
    evictLFU c = (c, []) := by
  unfold evictLFU
  rw [if_pos h]

theorem evictLFU_no_bucket (c : LFUCache K V)
    (hmin : alookup c.frequencies c.minFrequency = none) :
    evictLFU c = (c, []) := by
  unfold evictLFU
  rw [hmin]
  split <;> rfl

theorem evictLFU_empty_bucket (c : LFUCache K V) (minNode : LFUNode K)
    (hmin : alookup c.frequencies c.minFrequency = some minNode)
    (hempty : minNode.items = []) :
    evictLFU c = (c, []) := by
  unfold evictLFU
  rw [hmin]
  dsimp only
  rw [hempty]
  split <;> rfl

end Spec

/-! ## Preservation of the invariant -/

section Pres

variable {K V : Type} [DecidableEq K]

theorem mem_bucketAt (c : LFUCache K V) (f : Nat) (e : Elem K)
    (h : e ∈ bucketAt c f) :
    ∃ node, alookup c.frequencies f = some node ∧ e ∈ node.items := by
  unfold bucketAt at h
  cases hx : alookup c.frequencies f with
  | none => rw [hx] at h; simp at h
  | some node => rw [hx] at h; exact ⟨node, rfl, h⟩

theorem bucketAt_of_lookup (c : LFUCache K V) (f : Nat) (node : LFUNode K)
    (h : alookup c.frequencies f = some node) : bucketAt c f = node.items := by
  unfold bucketAt
  rw [h]

theorem inv_new (name : String) (capacity : Nat) :
    Inv (NewLFUCache name capacity : LFUCache K V) := by
  refine ⟨⟨?_, ?_, ?_, ?_, ?_, ?_, ?_, ?_, ?_, ?_, ?_, ?_⟩, ?_, ?_⟩ <;>
    simp [NewLFUCache, akeys]

/-- A touch — the shared bump-then-`updateFrequency` step of the `Add`
update path (lfu.go 136-146) and the `Value` hit path (lfu.go 187-191) —
preserves the invariant. -/
theorem inv_touch (c : LFUCache K V) (k : K) (it it' : CacheItem K V)
    (hc : Inv c) (hit : alookup c.items k = some it)
    (hcount : it'.accessCount = it.accessCount + 1) :
    Inv (updateFrequency { c with items := aset c.items k it' } k) := by
  obtain ⟨e0, node0, he0, hn0, hmem⟩ := hc.resident k it hit
  have he0val : e0.2 = k := hc.k2eVal k e0 he0
  have hspec := updateFrequency_spec { c with items := aset c.items k it' } k
    it' e0 node0
    (alookup_aset_self c.items k it')
    he0
    (by show alookup c.frequencies it'.accessCount = some node0
        rw [hcount]; exact hn0)
  rw [hspec]
  dsimp only
  rw [show AccessCount it' = it.accessCount + 1 from hcount]
  set n := it.accessCount + 1 with hn
  have hne : n + 1 ≠ n := by omega
  rw [alookup_aset_ne _ _ hne]
  set remaining := node0.items.erase e0 with hrem
  set node1 := (alookup c.frequencies (n + 1)).getD
    { frequency := n + 1, items := [] } with hnode1
  have hb : node1.items = bucketAt c (n + 1) := by
    rw [hnode1]
    unfold bucketAt
    cases alookup c.frequencies (n + 1) <;> rfl
  -- the new frequency map, described pointwise
  set freqs2 := aset (aset c.frequencies n { node0 with items := remaining })
      (n + 1) { node1 with items := (c.nextId, k) :: node1.items } with hfreqs2
  have hlook : ∀ f, alookup freqs2 f =
      if f = n + 1 then some { node1 with items := (c.nextId, k) :: node1.items }
      else if f = n then some { node0 with items := remaining }
      else alookup c.frequencies f := by
    intro f
    by_cases h1 : f = n + 1
    · subst h1
      rw [hfreqs2, alookup_aset_self, if_pos rfl]
    · by_cases h2 : f = n
      · subst h2
        rw [hfreqs2, alookup_aset_ne _ _ h1, alookup_aset_self,
          if_neg h1, if_pos rfl]
      · rw [hfreqs2, alookup_aset_ne _ _ h1, alookup_aset_ne _ _ h2,
          if_neg h1, if_neg h2]
  -- every element of the new map is the fresh element or an old element
  -- of the same-numbered old bucket
  have hsrc : ∀ f node e, alookup freqs2 f = some node → e ∈ node.items →
      (f = n + 1 ∧ e = (c.nextId, k)) ∨
      (∃ nodeo, alookup c.frequencies f = some nodeo ∧ e ∈ nodeo.items) := by
    intro f node e hf he
    rw [hlook] at hf
    by_cases h1 : f = n + 1
    · rw [if_pos h1] at hf
      injection hf with hf
      subst hf
      rcases List.mem_cons.mp he with he | he
      · exact Or.inl ⟨h1, he⟩
      · rw [hb] at he
        obtain ⟨nodeo, ho, hmo⟩ := mem_bucketAt c (n + 1) e he
        exact Or.inr ⟨nodeo, h1 ▸ ho, hmo⟩
    · rw [if_neg h1] at hf
      by_cases h2 : f = n
      · rw [if_pos h2] at hf
        injection hf with hf
        subst hf
        refine Or.inr ⟨node0, h2 ▸ hn0, ?_⟩
        exact List.erase_subset _ _ he
      · rw [if_neg h2] at hf
        exact Or.inr ⟨node, hf, he⟩
  have hn0ne : node0.items ≠ [] := List.ne_nil_of_mem hmem
  refine ⟨⟨?_, ?_, ?_, ?_, ?_, ?_, ?_, ?_, ?_, ?_, ?_, ?_⟩, ?_, ?_⟩
  -- wfItems
  · exact nodup_akeys_aset c.items k it' hc.wfItems
  -- wfK2E
  · exact nodup_akeys_aset c.keyToListElement k _ hc.wfK2E
  -- wfFreq
  · exact nodup_akeys_aset _ _ _ (nodup_akeys_aset _ _ _ hc.wfFreq)
  -- freqPos
  · intro f node hf
    rw [hlook] at hf
    by_cases h1 : f = n + 1
    · omega
    · rw [if_neg h1] at hf
      by_cases h2 : f = n
      · omega
      · rw [if_neg h2] at hf
        exact hc.freqPos f node hf
  -- idsNodupIn
  · intro f node hf
    rw [hlook] at hf
    by_cases h1 : f = n + 1
    · rw [if_pos h1] at hf
      injection hf with hf
      subst hf
      simp only [List.map_cons, List.nodup_cons]
      constructor
      · intro hx
        obtain ⟨e, he, hei⟩ := List.mem_map.mp hx
        rw [hb] at he
        obtain ⟨nodeo, ho, hmo⟩ := mem_bucketAt c (n + 1) e he
        have := hc.idsFresh _ _ _ ho hmo
        omega
      · have hnd : ((bucketAt c (n + 1)).map Prod.fst).Nodup := by
          unfold bucketAt
          cases hx : alookup c.frequencies (n + 1) with
          | none => simp
          | some nodeo => exact hc.idsNodupIn _ _ hx
        rw [hb]
        exact hnd
    · rw [if_neg h1] at hf
      by_cases h2 : f = n
      · rw [if_pos h2] at hf
        injection hf with hf
        subst hf
        exact List.Nodup.sublist
          (List.Sublist.map Prod.fst (List.erase_sublist e0 node0.items))
          (hc.idsNodupIn _ _ hn0)
      · rw [if_neg h2] at hf
        exact hc.idsNodupIn f node hf
  -- idsDisjoint
  · intro f g node node' e e' hfg hf hg he he'
    rcases hsrc f node e hf he with ⟨hf1, hee⟩ | ⟨nodeo, ho, hmo⟩ <;>
      rcases hsrc g node' e' hg he' with ⟨hg1, hee'⟩ | ⟨nodeo', ho', hmo'⟩
    · exact absurd (hf1.trans hg1.symm) hfg
    · subst hee
      have := hc.idsFresh _ _ _ ho' hmo'
      show c.nextId ≠ e'.1
      omega
    · subst hee'
      have := hc.idsFresh _ _ _ ho hmo
      show e.1 ≠ c.nextId
      omega
    · exact hc.idsDisjoint f g nodeo nodeo' e e' hfg ho ho' hmo hmo'
  -- idsFresh
  · intro f node e hf he
    rcases hsrc f node e hf he with ⟨_, hee⟩ | ⟨nodeo, ho, hmo⟩
    · subst hee
      show c.nextId < c.nextId + 1
      omega
    · have := hc.idsFresh _ _ _ ho hmo
      show e.1 < c.nextId + 1
      omega
  -- keysMatch
  · intro k'
    show (alookup (aset c.items k it') k').isSome =
      (alookup (aset c.keyToListElement k (c.nextId, k)) k').isSome
    by_cases hk : k' = k
    · rw [hk, alookup_aset_self, alookup_aset_self]
      rfl
    · rw [alookup_aset_ne _ _ hk, alookup_aset_ne _ _ hk]
      exact hc.keysMatch k'
  -- k2eVal
  · intro k' e he
    by_cases hk : k' = k
    · rw [hk] at he ⊢
      rw [alookup_aset_self] at he
      injection he with he
      subst he
      rfl
    · rw [alookup_aset_ne _ _ hk] at he
      exact hc.k2eVal k' e he
  -- resident
  · intro k' it'' hit''
    by_cases hk : k' = k
    · rw [hk] at hit'' ⊢
      rw [alookup_aset_self] at hit''
      injection hit'' with hit''
      subst hit''
      refine ⟨(c.nextId, k),
        { node1 with items := (c.nextId, k) :: node1.items },
        alookup_aset_self c.keyToListElement k (c.nextId, k), ?_,
        List.mem_cons_self _ _⟩
      rw [hcount, hlook, if_pos rfl]
    · rw [alookup_aset_ne _ _ hk] at hit''
      obtain ⟨e', node', he', hn', hm'⟩ := hc.resident k' it'' hit''
      have he'val : e'.2 = k' := hc.k2eVal k' e' he'
      have hne0 : e' ≠ e0 := by
        intro hcontra
        rw [hcontra] at he'val
        exact hk (he'val.symm.trans he0val)
      have hk2e' : alookup (aset c.keyToListElement k (c.nextId, k)) k' = some e' := by
        rw [alookup_aset_ne _ _ hk]
        exact he'
      by_cases h1 : it''.accessCount + 1 = n + 1
      · refine ⟨e', { node1 with items := (c.nextId, k) :: node1.items },
          hk2e', ?_, ?_⟩
        · rw [hlook, if_pos h1]
        · have hitems : node'.items = node1.items := by
            rw [hb, bucketAt_of_lookup c (n + 1) node' (h1 ▸ hn')]
          exact List.mem_cons_of_mem _ (hitems ▸ hm')
      · by_cases h2 : it''.accessCount + 1 = n
        · have hnode0 : node' = node0 := by
            have h' : alookup c.frequencies n = some node' := h2 ▸ hn'
            rw [hn0] at h'
            exact (Option.some.inj h').symm
          refine ⟨e', { node0 with items := remaining }, hk2e', ?_, ?_⟩
          · rw [hlook, if_neg h1, if_pos h2]
          · rw [hnode0] at hm'
            exact (List.mem_erase_of_ne hne0).mpr hm'
        · refine ⟨e', node', hk2e', ?_, hm'⟩
          rw [hlook, if_neg h1, if_neg h2]
          exact hn'
  -- minLe
  · intro f node hf hfne
    show (if remaining.length = 0 ∧ n = c.minFrequency then c.minFrequency + 1
      else c.minFrequency) ≤ f
    rw [hlook] at hf
    by_cases hcond : remaining.length = 0 ∧ n = c.minFrequency
    · rw [if_pos hcond]
      by_cases h1 : f = n + 1
      · omega
      · rw [if_neg h1] at hf
        by_cases h2 : f = n
        · rw [if_pos h2] at hf
          injection hf with hf
          subst hf
          exact absurd (List.length_eq_zero.mp hcond.1) hfne
        · rw [if_neg h2] at hf
          have := hc.minLe f node hf hfne
          omega
    · rw [if_neg hcond]
      by_cases h1 : f = n + 1
      · have := hc.minLe n node0 hn0 hn0ne
        omega
      · rw [if_neg h1] at hf
        by_cases h2 : f = n
        · have := hc.minLe n node0 hn0 hn0ne
          omega
        · rw [if_neg h2] at hf
          exact hc.minLe f node hf hfne
  -- loaderGood
  · intro f hf
    exact hc.loaderGood f hf
  -- minBucket
  · intro _
    show ∃ node', alookup freqs2
      (if remaining.length = 0 ∧ n = c.minFrequency then c.minFrequency + 1
        else c.minFrequency) = some node' ∧ node'.items ≠ []
    by_cases hcond : remaining.length = 0 ∧ n = c.minFrequency
    · rw [if_pos hcond]
      refine ⟨{ node1 with items := (c.nextId, k) :: node1.items }, ?_, by simp⟩
      rw [hlook, if_pos (by omega : c.minFrequency + 1 = n + 1)]
    · rw [if_neg hcond]
      by_cases h1 : c.minFrequency = n + 1
      · refine ⟨{ node1 with items := (c.nextId, k) :: node1.items }, ?_, by simp⟩
        rw [hlook, if_pos h1]
      · by_cases h2 : c.minFrequency = n
        · refine ⟨{ node0 with items := remaining }, ?_, ?_⟩
          · rw [hlook, if_neg h1, if_pos h2]
          · intro hnil
            have hr : remaining = [] := hnil
            exact hcond ⟨by rw [hr]; rfl, h2.symm⟩
        · obtain ⟨nodeM, hM, hMne⟩ :=
            hc.minBucket ⟨n, node0, hn0, hn0ne⟩
          refine ⟨nodeM, ?_, hMne⟩
          rw [hlook, if_neg h1, if_neg h2]
          exact hM
  -- sizeNonzero
  · intro _
    refine ⟨n + 1, { node1 with items := (c.nextId, k) :: node1.items }, ?_, by simp⟩
    rw [hlook, if_pos rfl]

theorem alookup_aerase_none {A : Type} (m : List (K × A)) (k x : K)
    (hwf : (akeys m).Nodup) (h : alookup m k = none) :
    alookup (aerase m x) k = none := by
  by_cases hk : k = x
  · subst hk
    exact alookup_aerase_self m k hwf
  · rw [alookup_aerase_ne m hk]
    exact h

/-- `evictLFU` either does nothing or removes the back element of the
minimum-frequency bucket. -/
theorem evictLFU_cases (c : LFUCache K V) :
    evictLFU c = (c, []) ∨
    ∃ minNode element, ¬ c.size = 0 ∧
      alookup c.frequencies c.minFrequency = some minNode ∧
      minNode.items.getLast? = some element ∧
      evictLFU c =
        ({ c with
            frequencies := aset c.frequencies c.minFrequency
              { minNode with items := minNode.items.erase element }
            items := aerase c.items element.2
            keyToListElement := aerase c.keyToListElement element.2
            size := c.size - 1 },
         List.replicate c.aboutToDeleteItem
           (Event.aboutToDelete (alookup c.items element.2))) := by
  by_cases hs : c.size = 0
  · exact Or.inl (evictLFU_size_zero c hs)
  · cases hm : alookup c.frequencies c.minFrequency with
    | none => exact Or.inl (evictLFU_no_bucket c hm)
    | some minNode =>
      cases hl : minNode.items.getLast? with
      | none =>
        refine Or.inl ?_
        refine evictLFU_empty_bucket c minNode hm ?_
        cases hi : minNode.items with
        | nil => rfl
        | cons a as =>
          rw [hi] at hl
          simp [List.getLast?_concat, List.getLast?] at hl
      | some element =>
        exact Or.inr ⟨minNode, element, hs, rfl, hl,
          evictLFU_spec c minNode element hs hm hl⟩

/-- Eviction preserves the invariant except possibly for the minimum
bucket's non-emptiness (restored by the insert that follows it). -/
theorem inv_evict (c : LFUCache K V) (hc : Inv c) : InvE (evictLFU c).1 := by
  rcases evictLFU_cases c with h | ⟨minNode, element, hs, hm, hl, h⟩
  · rw [h]
    exact hc.toInvE
  · rw [h]
    have hmemEl : element ∈ minNode.items := by
      obtain ⟨hne, heq⟩ := List.mem_getLast?_eq_getLast
        (show element ∈ minNode.items.getLast? from Option.mem_def.mpr hl)
      rw [heq]
      exact List.getLast_mem hne
    have hlookE : ∀ f,
        alookup (aset c.frequencies c.minFrequency
          { minNode with items := minNode.items.erase element }) f =
        if f = c.minFrequency
          then some { minNode with items := minNode.items.erase element }
          else alookup c.frequencies f := by
      intro f
      by_cases h1 : f = c.minFrequency
      · rw [h1, alookup_aset_self, if_pos rfl]
      · rw [alookup_aset_ne _ _ h1, if_neg h1]
    have hsrcE : ∀ f node e,
        alookup (aset c.frequencies c.minFrequency
          { minNode with items := minNode.items.erase element }) f = some node →
        e ∈ node.items →
        ∃ nodeo, alookup c.frequencies f = some nodeo ∧ e ∈ nodeo.items := by
      intro f node e hf he
      rw [hlookE] at hf
      by_cases h1 : f = c.minFrequency
      · rw [if_pos h1] at hf
        injection hf with hf
        subst hf
        exact ⟨minNode, h1 ▸ hm, List.erase_subset _ _ he⟩
      · rw [if_neg h1] at hf
        exact ⟨node, hf, he⟩
    refine ⟨?_, ?_, ?_, ?_, ?_, ?_, ?_, ?_, ?_, ?_, ?_, ?_⟩
    · exact nodup_akeys_aerase c.items element.2 hc.wfItems
    · exact nodup_akeys_aerase c.keyToListElement element.2 hc.wfK2E
    · exact nodup_akeys_aset _ _ _ hc.wfFreq
    · intro f node hf
      obtain hf := hf
      rw [hlookE] at hf
      by_cases h1 : f = c.minFrequency
      · exact h1 ▸ hc.freqPos c.minFrequency minNode hm
      · rw [if_neg h1] at hf
        exact hc.freqPos f node hf
    · intro f node hf
      rw [hlookE] at hf
      by_cases h1 : f = c.minFrequency
      · rw [if_pos h1] at hf
        injection hf with hf
        subst hf
        exact List.Nodup.sublist
          (List.Sublist.map Prod.fst (List.erase_sublist element minNode.items))
          (hc.idsNodupIn _ _ hm)
      · rw [if_neg h1] at hf
        exact hc.idsNodupIn f node hf
    · intro f g node node' e e' hfg hf hg he he'
      obtain ⟨nodeo, ho, hmo⟩ := hsrcE f node e hf he
      obtain ⟨nodeo', ho', hmo'⟩ := hsrcE g node' e' hg he'
      exact hc.idsDisjoint f g nodeo nodeo' e e' hfg ho ho' hmo hmo'
    · intro f node e hf he
      obtain ⟨nodeo, ho, hmo⟩ := hsrcE f node e hf he
      exact hc.idsFresh f nodeo e ho hmo
    · intro k'
      by_cases hk : k' = element.2
      · rw [hk, alookup_aerase_self c.items element.2 hc.wfItems,
          alookup_aerase_self c.keyToListElement element.2 hc.wfK2E]
        rfl
      · rw [alookup_aerase_ne c.items hk, alookup_aerase_ne c.keyToListElement hk]
        exact hc.keysMatch k'
    · intro k' e he
      by_cases hk : k' = element.2
      · rw [hk, alookup_aerase_self c.keyToListElement element.2 hc.wfK2E] at he
        exact absurd he (by simp)
      · rw [alookup_aerase_ne c.keyToListElement hk] at he
        exact hc.k2eVal k' e he
    · intro k' it' hit'
      by_cases hk : k' = element.2
      · rw [hk, alookup_aerase_self c.items element.2 hc.wfItems] at hit'
        exact absurd hit' (by simp)
      · rw [alookup_aerase_ne c.items hk] at hit'
        obtain ⟨e', node', he', hn', hm'⟩ := hc.resident k' it' hit'
        have he'val : e'.2 = k' := hc.k2eVal k' e' he'
        have hne : e' ≠ element := by
          intro hcontra
          rw [hcontra] at he'val
          exact hk he'val.symm
        by_cases h1 : it'.accessCount + 1 = c.minFrequency
        · refine ⟨e', { minNode with items := minNode.items.erase element },
            ?_, ?_, ?_⟩
          · rw [alookup_aerase_ne c.keyToListElement hk]
            exact he'
          · rw [hlookE, if_pos h1]
          · have hnn : node' = minNode := by
              have h' := h1 ▸ hn'
              rw [hm] at h'
              exact (Option.some.inj h').symm
            rw [hnn] at hm'
            exact (List.mem_erase_of_ne hne).mpr hm'
        · refine ⟨e', node', ?_, ?_, hm'⟩
          · rw [alookup_aerase_ne c.keyToListElement hk]
            exact he'
          · rw [hlookE, if_neg h1]
            exact hn'
    · intro f node hf hfne
      rw [hlookE] at hf
      by_cases h1 : f = c.minFrequency
      · rw [if_pos h1] at hf
        injection hf with hf
        subst hf
        have : minNode.items ≠ [] := List.ne_nil_of_mem hmemEl
        exact h1 ▸ hc.minLe c.minFrequency minNode hm this
      · rw [if_neg h1] at hf
        exact hc.minLe f node hf hfne
    · intro f hf
      exact hc.loaderGood f hf

/-- Some bookkeeping facts about `evictLFU` needed by its callers. -/
theorem evictLFU_fields (c : LFUCache K V) :
    (evictLFU c).1.nextId = c.nextId ∧
    (evictLFU c).1.capacity = c.capacity ∧
    (evictLFU c).1.loadData = c.loadData ∧
    (evictLFU c).1.addedItem = c.addedItem := by
  rcases evictLFU_cases c with h | ⟨minNode, element, _, _, _, h⟩ <;>
    rw [h] <;> exact ⟨rfl, rfl, rfl, rfl⟩

theorem evictLFU_lookup_none (c : LFUCache K V) (k : K)
    (hwf : (akeys c.items).Nodup)
    (h : alookup c.items k = none) : alookup (evictLFU c).1.items k = none := by
  rcases evictLFU_cases c with he | ⟨minNode, element, _, _, _, he⟩
  · rw [he]
    exact h
  · rw [he]
    exact alookup_aerase_none c.items k element.2 hwf h

/-- The fresh-insert core establishes the full invariant from the
post-eviction remainder. -/
theorem inv_insert_core (d : LFUCache K V) (k : K) (item : CacheItem K V)
    (hd : InvE d) (hnone : alookup d.items k = none)
    (hcount : item.accessCount = 0) :
    Inv { d with
      items := aset d.items k item
      size := d.size + 1
      frequencies := aset d.frequencies 1
        { (alookup d.frequencies 1).getD { frequency := 1, items := [] } with
          items := (d.nextId, k) ::
            ((alookup d.frequencies 1).getD { frequency := 1, items := [] }).items }
      keyToListElement := aset d.keyToListElement k (d.nextId, k)
      nextId := d.nextId + 1
      minFrequency := 1 } := by
  set node1 := (alookup d.frequencies 1).getD { frequency := 1, items := [] }
    with hnode1
  have hb : node1.items = bucketAt d 1 := by
    rw [hnode1]
    unfold bucketAt
    cases alookup d.frequencies 1 <;> rfl
  have hlook1 : ∀ f, alookup (aset d.frequencies 1
      { node1 with items := (d.nextId, k) :: node1.items }) f =
      if f = 1 then some { node1 with items := (d.nextId, k) :: node1.items }
      else alookup d.frequencies f := by
    intro f
    by_cases h1 : f = 1
    · rw [h1, alookup_aset_self, if_pos rfl]
    · rw [alookup_aset_ne _ _ h1, if_neg h1]
  have hsrc1 : ∀ f node e, alookup (aset d.frequencies 1
      { node1 with items := (d.nextId, k) :: node1.items }) f = some node →
      e ∈ node.items →
      (f = 1 ∧ e = (d.nextId, k)) ∨
      (∃ nodeo, alookup d.frequencies f = some nodeo ∧ e ∈ nodeo.items) := by
    intro f node e hf he
    rw [hlook1] at hf
    by_cases h1 : f = 1
    · rw [if_pos h1] at hf
      injection hf with hf
      subst hf
      rcases List.mem_cons.mp he with he | he
      · exact Or.inl ⟨h1, he⟩
      · rw [hb] at he
        obtain ⟨nodeo, ho, hmo⟩ := mem_bucketAt d 1 e he
        exact Or.inr ⟨nodeo, h1 ▸ ho, hmo⟩
    · rw [if_neg h1] at hf
      exact Or.inr ⟨node, hf, he⟩
  refine ⟨⟨?_, ?_, ?_, ?_, ?_, ?_, ?_, ?_, ?_, ?_, ?_, ?_⟩, ?_, ?_⟩
  · exact nodup_akeys_aset d.items k item hd.wfItems
  · exact nodup_akeys_aset d.keyToListElement k _ hd.wfK2E
  · exact nodup_akeys_aset d.frequencies 1 _ hd.wfFreq
  · intro f node hf
    rw [hlook1] at hf
    by_cases h1 : f = 1
    · omega
    · rw [if_neg h1] at hf
      exact hd.freqPos f node hf
  · intro f node hf
    rw [hlook1] at hf
    by_cases h1 : f = 1
    · rw [if_pos h1] at hf
      injection hf with hf
      subst hf
      simp only [List.map_cons, List.nodup_cons]
      constructor
      · intro hx
        obtain ⟨e, he, hei⟩ := List.mem_map.mp hx
        rw [hb] at he
        obtain ⟨nodeo, ho, hmo⟩ := mem_bucketAt d 1 e he
        have := hd.idsFresh _ _ _ ho hmo
        omega
      · have hnd : ((bucketAt d 1).map Prod.fst).Nodup := by
          unfold bucketAt
          cases hx : alookup d.frequencies 1 with
          | none => simp
          | some nodeo => exact hd.idsNodupIn _ _ hx
        rw [hb]
        exact hnd
    · rw [if_neg h1] at hf
      exact hd.idsNodupIn f node hf
  · intro f g node node' e e' hfg hf hg he he'
    rcases hsrc1 f node e hf he with ⟨hf1, hee⟩ | ⟨nodeo, ho, hmo⟩ <;>
      rcases hsrc1 g node' e' hg he' with ⟨hg1, hee'⟩ | ⟨nodeo', ho', hmo'⟩
    · exact absurd (hf1.trans hg1.symm) hfg
    · subst hee
      have := hd.idsFresh _ _ _ ho' hmo'
      show d.nextId ≠ e'.1
      omega
    · subst hee'
      have := hd.idsFresh _ _ _ ho hmo
      show e.1 ≠ d.nextId
      omega
    · exact hd.idsDisjoint f g nodeo nodeo' e e' hfg ho ho' hmo hmo'
  · intro f node e hf he
    rcases hsrc1 f node e hf he with ⟨_, hee⟩ | ⟨nodeo, ho, hmo⟩
    · subst hee
      show d.nextId < d.nextId + 1
      omega
    · have := hd.idsFresh _ _ _ ho hmo
      show e.1 < d.nextId + 1
      omega
  · intro k'
    show (alookup (aset d.items k item) k').isSome =
      (alookup (aset d.keyToListElement k (d.nextId, k)) k').isSome
    by_cases hk : k' = k
    · rw [hk, alookup_aset_self, alookup_aset_self]
      rfl
    · rw [alookup_aset_ne _ _ hk, alookup_aset_ne _ _ hk]
      exact hd.keysMatch k'
  · intro k' e he
    by_cases hk : k' = k
    · rw [hk] at he ⊢
      rw [alookup_aset_self] at he
      injection he with he
      subst he
      rfl
    · rw [alookup_aset_ne _ _ hk] at he
      exact hd.k2eVal k' e he
  · intro k' it' hit'
    by_cases hk : k' = k
    · rw [hk] at hit' ⊢
      rw [alookup_aset_self] at hit'
      injection hit' with hit'
      subst hit'
      refine ⟨(d.nextId, k), { node1 with items := (d.nextId, k) :: node1.items },
        alookup_aset_self d.keyToListElement k (d.nextId, k), ?_,
        List.mem_cons_self _ _⟩
      rw [hcount, hlook1, if_pos rfl]
    · rw [alookup_aset_ne _ _ hk] at hit'
      obtain ⟨e', node', he', hn', hm'⟩ := hd.resident k' it' hit'
      have hk2e' : alookup (aset d.keyToListElement k (d.nextId, k)) k' = some e' := by
        rw [alookup_aset_ne _ _ hk]
        exact he'
      by_cases h1 : it'.accessCount + 1 = 1
      · refine ⟨e', { node1 with items := (d.nextId, k) :: node1.items },
          hk2e', ?_, ?_⟩
        · rw [hlook1, if_pos h1]
        · have hitems : node'.items = node1.items := by
            rw [hb, bucketAt_of_lookup d 1 node' (h1 ▸ hn')]
          exact List.mem_cons_of_mem _ (hitems ▸ hm')
      · refine ⟨e', node', hk2e', ?_, hm'⟩
        rw [hlook1, if_neg h1]
        exact hn'
  · intro f node hf hfne
    show 1 ≤ f
    rw [hlook1] at hf
    by_cases h1 : f = 1
    · omega
    · rw [if_neg h1] at hf
      exact hd.freqPos f node hf
  · intro f hf
    exact hd.loaderGood f hf
  · intro _
    refine ⟨{ node1 with items := (d.nextId, k) :: node1.items }, ?_, by simp⟩
    show alookup (aset d.frequencies 1
      { node1 with items := (d.nextId, k) :: node1.items }) 1 = _
    rw [hlook1, if_pos rfl]
  · intro _
    refine ⟨1, { node1 with items := (d.nextId, k) :: node1.items }, ?_, by simp⟩
    rw [hlook1, if_pos rfl]

/-- `insertNew` (the fresh-insert block shared by `Add` and the loader
path of `Value`) preserves the invariant. -/
theorem inv_insertNew (c : LFUCache K V) (k : K) (item : CacheItem K V)
    (hc : Inv c) (hnone : alookup c.items k = none)
    (hcount : item.accessCount = 0) :
    Inv (insertNew c k item).1 := by
  unfold insertNew
  dsimp only
  by_cases hcap : (c.capacity : Int) ≤ c.size
  · rw [if_pos hcap]
    exact inv_insert_core (evictLFU c).1 k item (inv_evict c hc)
      (evictLFU_lookup_none c k hc.wfItems hnone) hcount
  · rw [if_neg hcap]
    exact inv_insert_core c k item hc.toInvE hnone hcount

theorem inv_add (c : LFUCache K V) (k : K) (l : Nat) (d : V) (hc : Inv c) :
    Inv (Add c k l d).1 := by
  unfold Add
  cases hit : alookup c.items k with
  | some existingItem =>
    dsimp only
    exact inv_touch c k existingItem _ hc hit rfl
  | none =>
    dsimp only
    exact inv_insertNew c k (NewCacheItem k l d) hc hit rfl

theorem inv_value (c : LFUCache K V) (k : K) (hc : Inv c) :
    Inv (Value c k).1 := by
  unfold Value
  cases hit : alookup c.items k with
  | some item =>
    dsimp only
    exact inv_touch c k item (KeepAlive item) hc hit rfl
  | none =>
    dsimp only
    cases hld : c.loadData with
    | none => exact hc
    | some loader =>
      dsimp only
      cases hl : loader k with
      | none => exact hc
      | some item =>
        dsimp only
        exact inv_insertNew c k item hc hit (hc.loaderGood loader hld k item hl)

/-- Under the invariant, `Delete`'s bucket removal is always a no-op
(the element of a key with counter `n` lives in bucket `n + 1`, not
bucket `n`), so the state change is exactly: drop the key from the two
key maps and decrement `size`. -/
theorem inv_delete_core (c : LFUCache K V) (k : K) (item : CacheItem K V)
    (hc : Inv c) (hit : alookup c.items k = some item)
    (e0 : Elem K) (node0 : LFUNode K)
    (he0 : alookup c.keyToListElement k = some e0)
    (hn0 : alookup c.frequencies (item.accessCount + 1) = some node0)
    (hmem : e0 ∈ node0.items) :
    Inv { c with
      items := aerase c.items k
      keyToListElement := aerase c.keyToListElement k
      size := c.size - 1 } := by
  refine ⟨⟨?_, ?_, ?_, ?_, ?_, ?_, ?_, ?_, ?_, ?_, ?_, ?_⟩, ?_, ?_⟩
  · exact nodup_akeys_aerase c.items k hc.wfItems
  · exact nodup_akeys_aerase c.keyToListElement k hc.wfK2E
  · exact hc.wfFreq
  · exact hc.freqPos
  · exact hc.idsNodupIn
  · exact hc.idsDisjoint
  · exact hc.idsFresh
  · intro k'
    by_cases hk : k' = k
    · rw [hk, alookup_aerase_self c.items k hc.wfItems,
        alookup_aerase_self c.keyToListElement k hc.wfK2E]
      rfl
    · rw [alookup_aerase_ne c.items hk, alookup_aerase_ne c.keyToListElement hk]
      exact hc.keysMatch k'
  · intro k' e he
    by_cases hk : k' = k
    · rw [hk, alookup_aerase_self c.keyToListElement k hc.wfK2E] at he
      exact absurd he (by simp)
    · rw [alookup_aerase_ne c.keyToListElement hk] at he
      exact hc.k2eVal k' e he
  · intro k' it' hit'
    by_cases hk : k' = k
    · rw [hk, alookup_aerase_self c.items k hc.wfItems] at hit'
      exact absurd hit' (by simp)
    · rw [alookup_aerase_ne c.items hk] at hit'
      obtain ⟨e', node', he', hn', hm'⟩ := hc.resident k' it' hit'
      refine ⟨e', node', ?_, hn', hm'⟩
      rw [alookup_aerase_ne c.keyToListElement hk]
      exact he'
  · exact hc.minLe
  · exact hc.loaderGood
  · exact hc.minBucket
  · intro _
    exact ⟨item.accessCount + 1, node0, hn0, List.ne_nil_of_mem hmem⟩

theorem inv_delete (c : LFUCache K V) (k : K) (hc : Inv c) :
    Inv (Delete c k).1 := by
  unfold Delete
  cases hit : alookup c.items k with
  | none => exact hc
  | some item =>
    dsimp only
    obtain ⟨e0, node0, he0, hn0, hmem⟩ := hc.resident k item hit
    rw [he0]
    cases hfreq : alookup c.frequencies (AccessCount item) with
    | none =>
      dsimp only
      exact inv_delete_core c k item hc hit e0 node0 he0 hn0 hmem
    | some node =>
      dsimp only
      have hnotmem : e0 ∉ node.items := by
        intro hmem'
        exact hc.idsDisjoint (AccessCount item) (item.accessCount + 1)
          node node0 e0 e0
          (by show item.accessCount ≠ item.accessCount + 1; omega)
          hfreq hn0 hmem' hmem rfl
      have herase : node.items.erase e0 = node.items :=
        List.erase_of_not_mem hnotmem
      have hcond : ¬ ((node.items.erase e0).length = 0 ∧
          AccessCount item = c.minFrequency) := by
        rintro ⟨hlen, hfmin⟩
        obtain ⟨nodeM, hM, hMne⟩ :=
          hc.minBucket ⟨item.accessCount + 1, node0, hn0, List.ne_nil_of_mem hmem⟩
        have hnodeM : node = nodeM := by
          have h' : alookup c.frequencies c.minFrequency = some node := hfmin ▸ hfreq
          rw [hM] at h'
          exact (Option.some.inj h').symm
        rw [herase, List.length_eq_zero] at hlen
        refine hMne ?_
        rw [← hnodeM]
        exact hlen
      rw [if_neg hcond]
      have hnode : { node with items := node.items.erase e0 } = node := by
        rw [herase]
      rw [hnode, aset_self_of_lookup c.frequencies (AccessCount item) node hfreq]
      exact inv_delete_core c k item hc hit e0 node0 he0 hn0 hmem

theorem inv_flush (c : LFUCache K V) (hc : Inv c) : Inv (Flush c).1 := by
  unfold Flush
  refine ⟨⟨?_, ?_, ?_, ?_, ?_, ?_, ?_, ?_, ?_, ?_, ?_, ?_⟩, ?_, ?_⟩
  · simp [akeys]
  · simp [akeys]
  · simp [akeys]
  · intro f node h; simp at h
  · intro f node h; simp at h
  · intro f g node node' e e' _ h; simp at h
  · intro f node e h; simp at h
  · intro k'; rfl
  · intro k' e h; simp [alookup] at h
  · intro k' it' h; simp [alookup] at h
  · intro f node h; simp at h
  · intro f hf; exact hc.loaderGood f hf
  · rintro ⟨f, node, h, -⟩; simp at h
  · intro h; exact absurd rfl h

/-- The invariant only depends on the structural fields, so operations
touching the callback registrations alone preserve it. -/
theorem inv_fields (c c' : LFUCache K V) (hc : Inv c)
    (hi : c'.items = c.items) (hk : c'.keyToListElement = c.keyToListElement)
    (hf : c'.frequencies = c.frequencies) (hm : c'.minFrequency = c.minFrequency)
    (hn : c'.nextId = c.nextId) (hs : c'.size = c.size)
    (hl : c'.loadData = c.loadData) : Inv c' := by
  refine ⟨⟨?_, ?_, ?_, ?_, ?_, ?_, ?_, ?_, ?_, ?_, ?_, ?_⟩, ?_, ?_⟩ <;>
    simp only [hi, hk, hf, hm, hn, hs, hl]
  exacts [hc.wfItems, hc.wfK2E, hc.wfFreq, hc.freqPos, hc.idsNodupIn,
    hc.idsDisjoint, hc.idsFresh, hc.keysMatch, hc.k2eVal, hc.resident,
    hc.minLe, hc.loaderGood, hc.minBucket, hc.sizeNonzero]

theorem inv_setLoader (c : LFUCache K V)
    (f : Option (K → Option (CacheItem K V))) (hc : Inv c)
    (hf : ∀ g, f = some g → FreshLoader g) : Inv (SetDataLoader c f) := by
  refine ⟨⟨?_, ?_, ?_, ?_, ?_, ?_, ?_, ?_, ?_, ?_, ?_, ?_⟩, ?_, ?_⟩
  exacts [hc.wfItems, hc.wfK2E, hc.wfFreq, hc.freqPos, hc.idsNodupIn,
    hc.idsDisjoint, hc.idsFresh, hc.keysMatch, hc.k2eVal, hc.resident,
    hc.minLe, hf, hc.minBucket, hc.sizeNonzero]

theorem inv_applyOp (c : LFUCache K V) (op : Op K V) (hc : Inv c)
    (hop : GoodOp op) : Inv (applyOp c op) := by
  cases op with
  | add k l d => exact inv_add c k l d hc
  | value k => exact inv_value c k hc
  | delete k => exact inv_delete c k hc
  | flush => exact inv_flush c hc
  | setLoader f =>
    refine inv_setLoader c f hc ?_
    intro g hg
    cases f with
    | none => exact absurd hg (by simp)
    | some g' =>
      injection hg with hg
      subst hg
      exact hop
  | setAddedCallback => exact inv_fields c _ hc rfl rfl rfl rfl rfl rfl rfl
  | addAddedCallback => exact inv_fields c _ hc rfl rfl rfl rfl rfl rfl rfl
  | removeAddedCallbacks => exact inv_fields c _ hc rfl rfl rfl rfl rfl rfl rfl
  | setDeleteCallback => exact inv_fields c _ hc rfl rfl rfl rfl rfl rfl rfl
  | addDeleteCallback => exact inv_fields c _ hc rfl rfl rfl rfl rfl rfl rfl
  | removeDeleteCallbacks => exact inv_fields c _ hc rfl rfl rfl rfl rfl rfl rfl

theorem inv_applyOps (c : LFUCache K V) (ops : List (Op K V)) (hc : Inv c)
    (hops : GoodOps ops) : Inv (applyOps c ops) := by
  induction ops generalizing c with
  | nil => exact hc
  | cons op rest ih =>
    exact ih (applyOp c op)
      (inv_applyOp c op hc (hops op (List.mem_cons_self _ _)))
      (fun o ho => hops o (List.mem_cons_of_mem _ ho))

/-- Every reachable state satisfies the structural invariant. -/
theorem reachable_inv (c : LFUCache K V) (h : Reachable c) : Inv c := by
  obtain ⟨name, cap, ops, hops, rfl⟩ := h
  exact inv_applyOps _ ops (inv_new name cap) hops

end Pres

/-! ## The clean invariant (no stale elements), holding absent `Delete` -/

section Clean

variable {K V : Type} [DecidableEq K]

/-- The clean-state extras that survive a bare `evictLFU`. -/
structure CleanE (c : LFUCache K V) extends InvE c : Prop where
  live : ∀ f node e, alookup c.frequencies f = some node → e ∈ node.items →
    alookup c.keyToListElement e.2 = some e
  sizeEq : c.size = (c.items.length : Int)
  contig : ∀ f, (alookup c.frequencies f).isSome = true ↔
    (1 ≤ f ∧ f ≤ c.frequencies.length)

/-- The full invariant of states reachable without `Delete`: on top of
`Inv`, every bucket element is the live, registered element of a resident
key, `size` agrees with the primary map, `size` respects the capacity
bound, and the created frequency levels are exactly `1..len`. -/
structure CleanInv (c : LFUCache K V) extends Inv c : Prop where
  live : ∀ f node e, alookup c.frequencies f = some node → e ∈ node.items →
    alookup c.keyToListElement e.2 = some e
  sizeEq : c.size = (c.items.length : Int)
  sizeBound : c.size ≤ max 1 (c.capacity : Int)
  contig : ∀ f, (alookup c.frequencies f).isSome = true ↔
    (1 ≤ f ∧ f ≤ c.frequencies.length)

theorem CleanInv.toCleanE (c : LFUCache K V) (hc : CleanInv c) : CleanE c :=
  ⟨hc.toInvE, hc.live, hc.sizeEq, hc.contig⟩

/-- In clean states every bucket element belongs to a resident key whose
access counter is one less than the bucket's frequency. -/
theorem clean_elem_count (c : LFUCache K V) (hc : CleanInv c)
    (f : Nat) (node : LFUNode K) (e : Elem K)
    (hf : alookup c.frequencies f = some node) (he : e ∈ node.items) :
    ∃ it, alookup c.items e.2 = some it ∧ it.accessCount + 1 = f := by
  have hk2e := hc.live f node e hf he
  have hsome : (alookup c.items e.2).isSome := by
    rw [hc.keysMatch e.2, hk2e]
    rfl
  obtain ⟨it, hit⟩ := Option.isSome_iff_exists.mp hsome
  obtain ⟨e', node', he', hn', hm'⟩ := hc.resident e.2 it hit
  have hee : e' = e := by
    rw [hk2e] at he'
    exact (Option.some.inj he').symm
  subst hee
  refine ⟨it, hit, ?_⟩
  by_cases hfe : it.accessCount + 1 = f
  · exact hfe
  · exact absurd rfl
      (hc.idsDisjoint (it.accessCount + 1) f node' node e' e' hfe hn' hf hm' he)

theorem clean_new (name : String) (capacity : Nat) :
    CleanInv (NewLFUCache name capacity : LFUCache K V) := by
  refine ⟨inv_new name capacity, ?_, ?_, ?_, ?_⟩
  · intro f node e h
    exact absurd h (by simp [NewLFUCache])
  · rfl
  · show (0 : Int) ≤ max 1 (capacity : Int)
    omega
  · intro f
    show (alookup ([] : List (Nat × LFUNode K)) f).isSome = true ↔
      (1 ≤ f ∧ f ≤ ([] : List (Nat × LFUNode K)).length)
    simp
    omega

/-- On an invariant state with non-zero size, `evictLFU` takes its main
branch: the minimum bucket exists and is non-empty, and the back element
is removed. -/
theorem evict_run (c : LFUCache K V) (hc : Inv c) (hs : ¬ c.size = 0) :
    ∃ minNode element,
      alookup c.frequencies c.minFrequency = some minNode ∧
      minNode.items.getLast? = some element ∧
      evictLFU c =
        ({ c with
            frequencies := aset c.frequencies c.minFrequency
              { minNode with items := minNode.items.erase element }
            items := aerase c.items element.2
            keyToListElement := aerase c.keyToListElement element.2
            size := c.size - 1 },
         List.replicate c.aboutToDeleteItem
           (Event.aboutToDelete (alookup c.items element.2))) := by
  obtain ⟨f, node, hf, hne⟩ := hc.sizeNonzero hs
  obtain ⟨minNode, hm, hMne⟩ := hc.minBucket ⟨f, node, hf, hne⟩
  have hl := List.getLast?_eq_getLast_of_ne_nil hMne
  exact ⟨minNode, _, hm, hl, evictLFU_spec c minNode _ hs hm hl⟩

theorem clean_evictE (c : LFUCache K V) (hc : CleanInv c) :
    CleanE (evictLFU c).1 := by
  by_cases hs : c.size = 0
  · rw [evictLFU_size_zero c hs]
    exact hc.toCleanE
  · obtain ⟨minNode, element, hm, hl, heq⟩ := evict_run c hc.toInv hs
    have hmemEl : element ∈ minNode.items := by
      obtain ⟨hne, heq'⟩ := List.mem_getLast?_eq_getLast
        (show element ∈ minNode.items.getLast? from Option.mem_def.mpr hl)
      rw [heq']
      exact List.getLast_mem hne
    have hlive := hc.live c.minFrequency minNode element hm hmemEl
    have hinvE : InvE (evictLFU c).1 := inv_evict c hc.toInv
    rw [heq] at hinvE ⊢
    have hlookE : ∀ f,
        alookup (aset c.frequencies c.minFrequency
          { minNode with items := minNode.items.erase element }) f =
        if f = c.minFrequency
          then some { minNode with items := minNode.items.erase element }
          else alookup c.frequencies f := by
      intro f
      by_cases h1 : f = c.minFrequency
      · rw [h1, alookup_aset_self, if_pos rfl]
      · rw [alookup_aset_ne _ _ h1, if_neg h1]
    refine ⟨hinvE, ?_, ?_, ?_⟩
    -- live
    · intro f node e hf he
      rw [hlookE] at hf
      have hmain : e ∈ minNode.items.erase element ∨
          (∃ nodeo, alookup c.frequencies f = some nodeo ∧ e ∈ nodeo.items ∧
            f ≠ c.minFrequency) := by
        by_cases h1 : f = c.minFrequency
        · rw [if_pos h1] at hf
          injection hf with hf
          subst hf
          exact Or.inl he
        · rw [if_neg h1] at hf
          exact Or.inr ⟨node, hf, he, h1⟩
      have helive : alookup c.keyToListElement e.2 = some e ∧ e ≠ element := by
        rcases hmain with hmain | ⟨nodeo, ho, hmo, hne1⟩
        · refine ⟨hc.live c.minFrequency minNode e hm
            (List.erase_subset _ _ hmain), ?_⟩
          intro hcontra
          subst hcontra
          have hnd : minNode.items.Nodup :=
            List.Nodup.of_map Prod.fst (hc.idsNodupIn _ _ hm)
          exact ((hnd.mem_erase_iff.mp hmain).1) rfl
        · refine ⟨hc.live f nodeo e ho hmo, ?_⟩
          intro hcontra
          subst hcontra
          exact hc.idsDisjoint f c.minFrequency nodeo minNode e e hne1
            ho hm hmo hmemEl rfl
      have hne2 : e.2 ≠ element.2 := by
        intro hcontra
        have h1 := helive.1
        rw [hcontra, hlive] at h1
        exact helive.2 (Option.some.inj h1).symm
      rw [alookup_aerase_ne c.keyToListElement hne2]
      exact helive.1
    -- sizeEq
    · have hsome : (alookup c.items element.2).isSome := by
        rw [hc.keysMatch element.2, hlive]
        rfl
      have hlen := length_aerase_of_lookup_some c.items element.2 hsome
      have hse := hc.sizeEq
      show c.size - 1 = ((aerase c.items element.2).length : Int)
      omega
    -- contig
    · intro f
      show (alookup (aset c.frequencies c.minFrequency
        { minNode with items := minNode.items.erase element }) f).isSome = true ↔
        (1 ≤ f ∧ f ≤ (aset c.frequencies c.minFrequency
          { minNode with items := minNode.items.erase element }).length)
      rw [hlookE,
        length_aset_of_lookup_some c.frequencies c.minFrequency _ (by rw [hm]; rfl)]
      by_cases h1 : f = c.minFrequency
      · rw [if_pos h1]
        constructor
        · intro _
          exact (hc.contig f).mp (by rw [h1, hm]; rfl)
        · intro _
          rfl
      · rw [if_neg h1]
        exact hc.contig f

theorem clean_insert_core (d : LFUCache K V) (k : K) (item : CacheItem K V)
    (hd : CleanE d) (hnone : alookup d.items k = none)
    (hcount : item.accessCount = 0)
    (hbound : d.size + 1 ≤ max 1 (d.capacity : Int)) :
    CleanInv { d with
      items := aset d.items k item
      size := d.size + 1
      frequencies := aset d.frequencies 1
        { (alookup d.frequencies 1).getD { frequency := 1, items := [] } with
          items := (d.nextId, k) ::
            ((alookup d.frequencies 1).getD { frequency := 1, items := [] }).items }
      keyToListElement := aset d.keyToListElement k (d.nextId, k)
      nextId := d.nextId + 1
      minFrequency := 1 } := by
  set node1 := (alookup d.frequencies 1).getD { frequency := 1, items := [] }
    with hnode1
  have hb : node1.items = bucketAt d 1 := by
    rw [hnode1]
    unfold bucketAt
    cases alookup d.frequencies 1 <;> rfl
  have hlook1 : ∀ f, alookup (aset d.frequencies 1
      { node1 with items := (d.nextId, k) :: node1.items }) f =
      if f = 1 then some { node1 with items := (d.nextId, k) :: node1.items }
      else alookup d.frequencies f := by
    intro f
    by_cases h1 : f = 1
    · rw [h1, alookup_aset_self, if_pos rfl]
    · rw [alookup_aset_ne _ _ h1, if_neg h1]
  refine ⟨inv_insert_core d k item hd.toInvE hnone hcount, ?_, ?_, ?_, ?_⟩
  -- live
  · intro f node e hf he
    rw [hlook1] at hf
    have hmain : (f = 1 ∧ e = (d.nextId, k)) ∨
        (∃ nodeo, alookup d.frequencies f = some nodeo ∧ e ∈ nodeo.items) := by
      by_cases h1 : f = 1
      · rw [if_pos h1] at hf
        injection hf with hf
        subst hf
        rcases List.mem_cons.mp he with he | he
        · exact Or.inl ⟨h1, he⟩
        · rw [hb] at he
          obtain ⟨nodeo, ho, hmo⟩ := mem_bucketAt d 1 e he
          exact Or.inr ⟨nodeo, h1 ▸ ho, hmo⟩
      · rw [if_neg h1] at hf
        exact Or.inr ⟨node, hf, he⟩
    rcases hmain with ⟨h1, hee⟩ | ⟨nodeo, ho, hmo⟩
    · subst hee
      exact alookup_aset_self d.keyToListElement k (d.nextId, k)
    · have hlive := hd.live f nodeo e ho hmo
      have hne : e.2 ≠ k := by
        intro hcontra
        have hsome : (alookup d.items e.2).isSome := by
          rw [hd.keysMatch e.2, hlive]
          rfl
        rw [hcontra, hnone] at hsome
        exact absurd hsome (by simp)
      rw [alookup_aset_ne _ _ hne]
      exact hlive
  -- sizeEq
  · have hlen := length_aset_of_lookup_none d.items k item hnone
    have hse := hd.sizeEq
    show d.size + 1 = ((aset d.items k item).length : Int)
    omega
  -- sizeBound
  · exact hbound
  -- contig
  · intro f
    show (alookup (aset d.frequencies 1
      { node1 with items := (d.nextId, k) :: node1.items }) f).isSome = true ↔
      (1 ≤ f ∧ f ≤ (aset d.frequencies 1
        { node1 with items := (d.nextId, k) :: node1.items }).length)
    rw [hlook1]
    cases h1lk : alookup d.frequencies 1 with
    | some nodeo =>
      rw [length_aset_of_lookup_some d.frequencies 1 _ (by rw [h1lk]; rfl)]
      by_cases h1 : f = 1
      · rw [if_pos h1]
        constructor
        · intro _
          exact (hd.contig f).mp (by rw [h1, h1lk]; rfl)
        · intro _
          rfl
      · rw [if_neg h1]
        exact hd.contig f
    | none =>
      have hL0 : d.frequencies.length = 0 := by
        have h'' : ¬ (1 ≤ d.frequencies.length) := by
          intro hge
          have h' := (hd.contig 1).mpr ⟨le_refl 1, hge⟩
          rw [h1lk] at h'
          exact absurd h' (by simp)
        omega
      rw [length_aset_of_lookup_none d.frequencies 1 _ h1lk, hL0]
      by_cases h1 : f = 1
      · rw [if_pos h1]
        constructor
        · intro _
          omega
        · intro _
          rfl
      · rw [if_neg h1]
        constructor
        · intro hsm
          have := (hd.contig f).mp hsm
          omega
        · intro hrange
          omega

theorem clean_touch (c : LFUCache K V) (k : K) (it it' : CacheItem K V)
    (hc : CleanInv c) (hit : alookup c.items k = some it)
    (hcount : it'.accessCount = it.accessCount + 1) :
    CleanInv (updateFrequency { c with items := aset c.items k it' } k) := by
  have hinv := inv_touch c k it it' hc.toInv hit hcount
  obtain ⟨e0, node0, he0, hn0, hmem⟩ := hc.resident k it hit
  have he0val : e0.2 = k := hc.k2eVal k e0 he0
  have hspec := updateFrequency_spec { c with items := aset c.items k it' } k
    it' e0 node0
    (alookup_aset_self c.items k it')
    he0
    (by show alookup c.frequencies it'.accessCount = some node0
        rw [hcount]; exact hn0)
  rw [hspec] at hinv ⊢
  dsimp only at hinv ⊢
  rw [show AccessCount it' = it.accessCount + 1 from hcount] at hinv ⊢
  set n := it.accessCount + 1 with hn
  have hne : n + 1 ≠ n := by omega
  rw [alookup_aset_ne _ _ hne] at hinv ⊢
  set remaining := node0.items.erase e0 with hrem
  set node1 := (alookup c.frequencies (n + 1)).getD
    { frequency := n + 1, items := [] } with hnode1
  have hb : node1.items = bucketAt c (n + 1) := by
    rw [hnode1]
    unfold bucketAt
    cases alookup c.frequencies (n + 1) <;> rfl
  set freqs2 := aset (aset c.frequencies n { node0 with items := remaining })
      (n + 1) { node1 with items := (c.nextId, k) :: node1.items } with hfreqs2
  have hlook : ∀ f, alookup freqs2 f =
      if f = n + 1 then some { node1 with items := (c.nextId, k) :: node1.items }
      else if f = n then some { node0 with items := remaining }
      else alookup c.frequencies f := by
    intro f
    by_cases h1 : f = n + 1
    · subst h1
      rw [hfreqs2, alookup_aset_self, if_pos rfl]
    · by_cases h2 : f = n
      · subst h2
        rw [hfreqs2, alookup_aset_ne _ _ h1, alookup_aset_self,
          if_neg h1, if_pos rfl]
      · rw [hfreqs2, alookup_aset_ne _ _ h1, alookup_aset_ne _ _ h2,
          if_neg h1, if_neg h2]
  have hsrc' : ∀ f node e, alookup freqs2 f = some node → e ∈ node.items →
      (f = n + 1 ∧ e = (c.nextId, k)) ∨
      (∃ nodeo, alookup c.frequencies f = some nodeo ∧ e ∈ nodeo.items ∧
        e ≠ e0) := by
    intro f node e hf he
    rw [hlook] at hf
    by_cases h1 : f = n + 1
    · rw [if_pos h1] at hf
      injection hf with hf
      subst hf
      rcases List.mem_cons.mp he with he | he
      · exact Or.inl ⟨h1, he⟩
      · rw [hb] at he
        obtain ⟨nodeo, ho, hmo⟩ := mem_bucketAt c (n + 1) e he
        refine Or.inr ⟨nodeo, h1 ▸ ho, hmo, ?_⟩
        intro hcontra
        subst hcontra
        exact hc.idsDisjoint (n + 1) n nodeo node0 e e hne
          ho hn0 hmo hmem rfl
    · rw [if_neg h1] at hf
      by_cases h2 : f = n
      · rw [if_pos h2] at hf
        injection hf with hf
        subst hf
        have hnd : node0.items.Nodup :=
          List.Nodup.of_map Prod.fst (hc.idsNodupIn _ _ hn0)
        refine Or.inr ⟨node0, h2 ▸ hn0, List.erase_subset _ _ he, ?_⟩
        exact (hnd.mem_erase_iff.mp he).1
      · rw [if_neg h2] at hf
        refine Or.inr ⟨node, hf, he, ?_⟩
        intro hcontra
        subst hcontra
        exact hc.idsDisjoint f n node node0 e e h2 hf hn0 he hmem rfl
  have hLn : n ≤ c.frequencies.length := ((hc.contig n).mp (by rw [hn0]; rfl)).2
  refine ⟨hinv, ?_, ?_, ?_, ?_⟩
  -- live
  · intro f node e hf he
    rcases hsrc' f node e hf he with ⟨h1, hee⟩ | ⟨nodeo, ho, hmo, hnee0⟩
    · subst hee
      exact alookup_aset_self c.keyToListElement k (c.nextId, k)
    · have hlive := hc.live f nodeo e ho hmo
      have hne2 : e.2 ≠ k := by
        intro hcontra
        rw [hcontra, he0] at hlive
        exact hnee0 (Option.some.inj hlive).symm
      rw [alookup_aset_ne _ _ hne2]
      exact hlive
  -- sizeEq
  · have hlen := length_aset_of_lookup_some c.items k it' (by rw [hit]; rfl)
    have hse := hc.sizeEq
    show c.size = ((aset c.items k it').length : Int)
    omega
  -- sizeBound
  · exact hc.sizeBound
  -- contig
  · intro f
    show (alookup freqs2 f).isSome = true ↔ (1 ≤ f ∧ f ≤ freqs2.length)
    have hlenInner : (aset c.frequencies n { node0 with items := remaining }).length
        = c.frequencies.length :=
      length_aset_of_lookup_some c.frequencies n _ (by rw [hn0]; rfl)
    have hlkInner : alookup (aset c.frequencies n { node0 with items := remaining })
        (n + 1) = alookup c.frequencies (n + 1) := alookup_aset_ne _ _ hne
    rw [hlook]
    cases hnew : alookup c.frequencies (n + 1) with
    | some nodeNew =>
      have hlen2 : freqs2.length = c.frequencies.length := by
        rw [hfreqs2, length_aset_of_lookup_some _ _ _ (by rw [hlkInner, hnew]; rfl),
          hlenInner]
      rw [hlen2]
      by_cases h1 : f = n + 1
      · rw [if_pos h1]
        have := (hc.contig (n + 1)).mp (by rw [hnew]; rfl)
        constructor
        · intro _
          omega
        · intro _
          rfl
      · rw [if_neg h1]
        by_cases h2 : f = n
        · rw [if_pos h2]
          constructor
          · intro _
            omega
          · intro _
            rfl
        · rw [if_neg h2]
          exact hc.contig f
    | none =>
      have hLn1 : ¬ (n + 1 ≤ c.frequencies.length) := by
        intro hge
        have h' := (hc.contig (n + 1)).mpr ⟨by omega, hge⟩
        rw [hnew] at h'
        exact absurd h' (by simp)
      have hlen2 : freqs2.length = c.frequencies.length + 1 := by
        rw [hfreqs2, length_aset_of_lookup_none _ _ _ (by rw [hlkInner, hnew]),
          hlenInner]
      rw [hlen2]
      by_cases h1 : f = n + 1
      · rw [if_pos h1]
        constructor
        · intro _
          omega
        · intro _
          rfl
      · rw [if_neg h1]
        by_cases h2 : f = n
        · rw [if_pos h2]
          constructor
          · intro _
            omega
          · intro _
            rfl
        · rw [if_neg h2]
          constructor
          · intro hsm
            have := (hc.contig f).mp hsm
            omega
          · intro hrange
            refine (hc.contig f).mpr ⟨hrange.1, ?_⟩
            omega

/-- `insertNew` preserves the clean invariant. -/
theorem clean_insertNew (c : LFUCache K V) (k : K) (item : CacheItem K V)
    (hc : CleanInv c) (hnone : alookup c.items k = none)
    (hcount : item.accessCount = 0) :
    CleanInv (insertNew c k item).1 := by
  unfold insertNew
  dsimp only
  by_cases hcap : (c.capacity : Int) ≤ c.size
  · rw [if_pos hcap]
    refine clean_insert_core (evictLFU c).1 k item (clean_evictE c hc)
      (evictLFU_lookup_none c k hc.wfItems hnone) hcount ?_
    obtain ⟨hn, hcapEq, _, _⟩ := evictLFU_fields c
    rw [hcapEq]
    by_cases hs : c.size = 0
    · rw [evictLFU_size_zero c hs]
      show c.size + 1 ≤ max 1 (c.capacity : Int)
      have h1 : (1 : Int) ≤ max 1 (c.capacity : Int) := le_max_left _ _
      omega
    · obtain ⟨minNode, element, hm, hl, heq⟩ := evict_run c hc.toInv hs
      rw [heq]
      have := hc.sizeBound
      show c.size - 1 + 1 ≤ max 1 (c.capacity : Int)
      omega
  · rw [if_neg hcap]
    refine clean_insert_core c k item hc.toCleanE hnone hcount ?_
    have h1 : (1 : Int) ≤ max 1 (c.capacity : Int) := le_max_left _ _
    have h2 : (c.capacity : Int) ≤ max 1 (c.capacity : Int) := le_max_right _ _
    omega

theorem clean_add (c : LFUCache K V) (k : K) (l : Nat) (d : V)
    (hc : CleanInv c) : CleanInv (Add c k l d).1 := by
  unfold Add
  cases hit : alookup c.items k with
  | some existingItem =>
    dsimp only
    exact clean_touch c k existingItem _ hc hit rfl
  | none =>
    dsimp only
    exact clean_insertNew c k (NewCacheItem k l d) hc hit rfl

theorem clean_value (c : LFUCache K V) (k : K) (hc : CleanInv c) :
    CleanInv (Value c k).1 := by
  unfold Value
  cases hit : alookup c.items k with
  | some item =>
    dsimp only
    exact clean_touch c k item (KeepAlive item) hc hit rfl
  | none =>
    dsimp only
    cases hld : c.loadData with
    | none => exact hc
    | some loader =>
      dsimp only
      cases hl : loader k with
      | none => exact hc
      | some item =>
        dsimp only
        exact clean_insertNew c k item hc hit (hc.loaderGood loader hld k item hl)

theorem clean_flush (c : LFUCache K V) (hc : CleanInv c) :
    CleanInv (Flush c).1 := by
  refine ⟨inv_flush c hc.toInv, ?_, ?_, ?_, ?_⟩
  · intro f node e h
    exact absurd h (by simp [Flush])
  · rfl
  · show (0 : Int) ≤ max 1 (c.capacity : Int)
    have h1 : (1 : Int) ≤ max 1 (c.capacity : Int) := le_max_left _ _
    omega
  · intro f
    show (alookup ([] : List (Nat × LFUNode K)) f).isSome = true ↔
      (1 ≤ f ∧ f ≤ ([] : List (Nat × LFUNode K)).length)
    simp
    omega

theorem clean_fields (c c' : LFUCache K V) (hc : CleanInv c)
    (hi : c'.items = c.items) (hk : c'.keyToListElement = c.keyToListElement)
    (hf : c'.frequencies = c.frequencies) (hm : c'.minFrequency = c.minFrequency)
    (hn : c'.nextId = c.nextId) (hs : c'.size = c.size)
    (hl : c'.loadData = c.loadData) (hcap : c'.capacity = c.capacity) :
    CleanInv c' := by
  refine ⟨inv_fields c c' hc.toInv hi hk hf hm hn hs hl, ?_, ?_, ?_, ?_⟩ <;>
    simp only [hi, hk, hf, hm, hn, hs, hl, hcap]
  exacts [hc.live, hc.sizeEq, hc.sizeBound, hc.contig]

theorem clean_setLoader (c : LFUCache K V)
    (f : Option (K → Option (CacheItem K V))) (hc : CleanInv c)
    (hf : ∀ g, f = some g → FreshLoader g) : CleanInv (SetDataLoader c f) := by
  refine ⟨inv_setLoader c f hc.toInv hf, ?_, ?_, ?_, ?_⟩
  exacts [hc.live, hc.sizeEq, hc.sizeBound, hc.contig]

theorem clean_applyOp (c : LFUCache K V) (op : Op K V) (hc : CleanInv c)
    (hop : GoodOp op) (hnd : ∀ k, op ≠ Op.delete k) :
    CleanInv (applyOp c op) := by
  cases op with
  | add k l d => exact clean_add c k l d hc
  | value k => exact clean_value c k hc
  | delete k => exact absurd rfl (hnd k)
  | flush => exact clean_flush c hc
  | setLoader f =>
    refine clean_setLoader c f hc ?_
    intro g hg
    cases f with
    | none => exact absurd hg (by simp)
    | some g' =>
      injection hg with hg
      subst hg
      exact hop
  | setAddedCallback =>
    exact clean_fields c _ hc rfl rfl rfl rfl rfl rfl rfl rfl
  | addAddedCallback =>
    exact clean_fields c _ hc rfl rfl rfl rfl rfl rfl rfl rfl
  | removeAddedCallbacks =>
    exact clean_fields c _ hc rfl rfl rfl rfl rfl rfl rfl rfl
  | setDeleteCallback =>
    exact clean_fields c _ hc rfl rfl rfl rfl rfl rfl rfl rfl
  | addDeleteCallback =>
    exact clean_fields c _ hc rfl rfl rfl rfl rfl rfl rfl rfl
  | removeDeleteCallbacks =>
    exact clean_fields c _ hc rfl rfl rfl rfl rfl rfl rfl rfl

theorem clean_applyOps (c : LFUCache K V) (ops : List (Op K V))
    (hc : CleanInv c) (hops : GoodOps ops) (hnd : DeleteFree ops) :
    CleanInv (applyOps c ops) := by
  induction ops generalizing c with
  | nil => exact hc
  | cons op rest ih =>
    refine ih (applyOp c op)
      (clean_applyOp c op hc (hops op (List.mem_cons_self _ _)) ?_)
      (fun o ho => hops o (List.mem_cons_of_mem _ ho))
      (fun k hk => hnd k (List.mem_cons_of_mem _ hk))
    intro k hk
    exact hnd k (hk ▸ List.mem_cons_self _ _)

/-- Every state reachable without `Delete` satisfies the clean
invariant. -/
theorem cleanReachable_cleanInv (c : LFUCache K V) (h : CleanReachable c) :
    CleanInv c := by
  obtain ⟨name, cap, ops, hops, hnd, rfl⟩ := h
  exact clean_applyOps _ ops (clean_new name cap) hops hnd

end Clean

/-! ## Add-only sequences (for the capacity bound) -/

section Adds

variable {K V : Type} [DecidableEq K]

/-- The state after a sequence of `Add` calls. -/
def applyAdds (c : LFUCache K V) (adds : List (K × Nat × V)) : LFUCache K V :=
  adds.foldl (fun c a => (Add c a.1 a.2.1 a.2.2).1) c

theorem updateFrequency_const (c : LFUCache K V) (k : K) :
    (updateFrequency c k).size = c.size ∧
    (updateFrequency c k).capacity = c.capacity := by
  unfold updateFrequency
  split
  · dsimp only
    split
    · split
      · exact ⟨rfl, rfl⟩
      · exact ⟨rfl, rfl⟩
    · exact ⟨rfl, rfl⟩
  · exact ⟨rfl, rfl⟩

theorem insertNew_capacity (c : LFUCache K V) (k : K) (item : CacheItem K V) :
    (insertNew c k item).1.capacity = c.capacity := by
  unfold insertNew
  dsimp only
  by_cases hcap : (c.capacity : Int) ≤ c.size
  · rw [if_pos hcap]
    exact (evictLFU_fields c).2.1
  · rw [if_neg hcap]

theorem Add_capacity (c : LFUCache K V) (k : K) (l : Nat) (d : V) :
    (Add c k l d).1.capacity = c.capacity := by
  unfold Add
  cases hit : alookup c.items k with
  | some existingItem =>
    dsimp only
    exact (updateFrequency_const _ k).2
  | none =>
    dsimp only
    exact insertNew_capacity c k (NewCacheItem k l d)

theorem applyAdds_capacity (c : LFUCache K V) (adds : List (K × Nat × V)) :
    (applyAdds c adds).capacity = c.capacity := by
  induction adds generalizing c with
  | nil => rfl
  | cons a rest ih =>
    show (applyAdds (Add c a.1 a.2.1 a.2.2).1 rest).capacity = c.capacity
    rw [ih, Add_capacity]

/-- With capacity 0, any `Add` leaves exactly one item behind: the evict
that precedes a fresh insert removes the single resident (or nothing when
the cache is empty), and the insert then brings `size` to 1. -/
theorem add_size_cap0 (c : LFUCache K V) (hc : CleanInv c)
    (hcap : c.capacity = 0) (k : K) (l : Nat) (d : V) :
    (Add c k l d).1.size = 1 := by
  unfold Add
  cases hit : alookup c.items k with
  | some existingItem =>
    dsimp only
    rw [(updateFrequency_const _ k).1]
    show c.size = 1
    have h1 : c.size ≤ max 1 (c.capacity : Int) := hc.sizeBound
    rw [hcap] at h1
    have h2 : c.size = (c.items.length : Int) := hc.sizeEq
    have h3 : 1 ≤ c.items.length := by
      have := alookup_mem c.items k existingItem hit
      cases hi : c.items with
      | nil => rw [hi] at this; exact absurd this (by simp)
      | cons p rest => simp
    simp at h1
    omega
  | none =>
    dsimp only
    unfold insertNew
    dsimp only
    have hle : (c.capacity : Int) ≤ c.size := by
      rw [hcap]
      have h2 : c.size = (c.items.length : Int) := hc.sizeEq
      omega
    rw [if_pos hle]
    show (evictLFU c).1.size + 1 = 1
    by_cases hs : c.size = 0
    · rw [evictLFU_size_zero c hs]
      show c.size + 1 = 1
      omega
    · obtain ⟨minNode, element, hm, hl', heq⟩ := evict_run c hc.toInv hs
      rw [heq]
      show c.size - 1 + 1 = 1
      have h1 : c.size ≤ max 1 (c.capacity : Int) := hc.sizeBound
      rw [hcap] at h1
      simp at h1
      have h2 : c.size = (c.items.length : Int) := hc.sizeEq
      omega

theorem clean_applyAdds (c : LFUCache K V) (adds : List (K × Nat × V))
    (hc : CleanInv c) : CleanInv (applyAdds c adds) := by
  induction adds generalizing c with
  | nil => exact hc
  | cons a rest ih =>
    exact ih (Add c a.1 a.2.1 a.2.2).1 (clean_add c a.1 a.2.1 a.2.2 hc)

end Adds

/-! ## The downward-flattened bucket traversal (for MostAccessed) -/

section Flatten

variable {K V : Type} [DecidableEq K]

/-- The resident items of the bucket for `f`, front to back. -/
def bucketLive (c : LFUCache K V) (f : Nat) : List (CacheItem K V) :=
  (bucketAt c f).filterMap fun e => alookup c.items e.2

/-- Concatenation of the resident bucket contents for frequencies
`f, f-1, ..., 1`. -/
def flattenAux (c : LFUCache K V) : Nat → List (CacheItem K V)
  | 0 => []
  | f + 1 => bucketLive c (f + 1) ++ flattenAux c f

/-- The full traversal `MostAccessed` walks: buckets in descending
frequency order starting from the count of frequency levels ever
created, each bucket front (most recently touched) first. -/
def flattenDesc (c : LFUCache K V) : List (CacheItem K V) :=
  flattenAux c c.frequencies.length

theorem bucketTake_eq_take (c : LFUCache K V) (es : List (Elem K)) (rem : Nat) :
    bucketTake c es rem =
      (es.filterMap fun e => alookup c.items e.2).take rem := by
  induction es generalizing rem with
  | nil => cases rem <;> rfl
  | cons e rest ih =>
    cases rem with
    | zero => rfl
    | succ r =>
      show (match alookup c.items e.2 with
        | some item => item :: bucketTake c rest r
        | none => bucketTake c rest (r + 1)) = _
      cases hx : alookup c.items e.2 with
      | some item =>
        rw [show (e :: rest).filterMap (fun e => alookup c.items e.2) =
          item :: rest.filterMap (fun e => alookup c.items e.2) from by
            simp [List.filterMap_cons, hx]]
        rw [List.take_succ_cons, ih r]
      | none =>
        rw [show (e :: rest).filterMap (fun e => alookup c.items e.2) =
          rest.filterMap (fun e => alookup c.items e.2) from by
            simp [List.filterMap_cons, hx]]
        exact ih (r + 1)

theorem mostAccessedAux_eq_take (c : LFUCache K V) (f : Nat) (rem : Nat) :
    mostAccessedAux c f rem = (flattenAux c f).take rem := by
  induction f generalizing rem with
  | zero => simp [mostAccessedAux, flattenAux]
  | succ f ih =>
    cases rem with
    | zero => rfl
    | succ r =>
      show (match alookup c.frequencies (f + 1) with
        | some node =>
          let got := bucketTake c node.items (r + 1)
          got ++ mostAccessedAux c f ((r + 1) - got.length)
        | none => mostAccessedAux c f (r + 1)) = _
      cases hx : alookup c.frequencies (f + 1) with
      | none =>
        have hbl : bucketLive c (f + 1) = [] := by
          unfold bucketLive bucketAt
          rw [hx]
          rfl
        show mostAccessedAux c f (r + 1) = _
        rw [ih, show flattenAux c (f + 1) = bucketLive c (f + 1) ++ flattenAux c f
          from rfl, hbl, List.nil_append]
      | some node =>
        have hbl : bucketLive c (f + 1) =
            node.items.filterMap fun e => alookup c.items e.2 := by
          unfold bucketLive bucketAt
          rw [hx]
        show bucketTake c node.items (r + 1) ++
          mostAccessedAux c f ((r + 1) - (bucketTake c node.items (r + 1)).length) = _
        rw [show flattenAux c (f + 1) = bucketLive c (f + 1) ++ flattenAux c f
          from rfl, hbl, bucketTake_eq_take, ih, List.take_append_eq_append_take,
          List.length_take]
        congr 1
        congr 1
        omega

/-- `MostAccessed` returns exactly the first `count` entries of the
descending-frequency traversal. -/
theorem mostAccessed_eq_take (c : LFUCache K V) (count : Nat) :
    MostAccessed c count = (flattenDesc c).take count :=
  mostAccessedAux_eq_take c c.frequencies.length count

theorem bucketLive_count (c : LFUCache K V) (hc : CleanInv c) (f : Nat)
    (it : CacheItem K V) (hmem : it ∈ bucketLive c f) :
    it.accessCount + 1 = f := by
  unfold bucketLive at hmem
  obtain ⟨e, he, hit⟩ := List.mem_filterMap.mp hmem
  obtain ⟨node, hf, hm⟩ := mem_bucketAt c f e he
  obtain ⟨it', hit', hcount⟩ := clean_elem_count c hc f node e hf hm
  rw [hit] at hit'
  rw [Option.some.inj hit']
  exact hcount

theorem flattenAux_count_le (c : LFUCache K V) (hc : CleanInv c) (f : Nat)
    (it : CacheItem K V) (hmem : it ∈ flattenAux c f) :
    it.accessCount + 1 ≤ f := by
  induction f with
  | zero => exact absurd hmem (by simp [flattenAux])
  | succ f ih =>
    rcases List.mem_append.mp hmem with h | h
    · rw [bucketLive_count c hc (f + 1) it h]
    · have := ih h
      omega

/-- The descending traversal is sorted by non-increasing access count. -/
theorem flattenAux_sorted (c : LFUCache K V) (hc : CleanInv c) (f : Nat) :
    (flattenAux c f).Pairwise
      (fun a b => b.accessCount ≤ a.accessCount) := by
  induction f with
  | zero => simp [flattenAux]
  | succ f ih =>
    show (bucketLive c (f + 1) ++ flattenAux c f).Pairwise _
    rw [List.pairwise_append]
    refine ⟨?_, ih, ?_⟩
    · refine List.pairwise_of_forall_mem_list ?_
      intro a ha b hb
      have h1 := bucketLive_count c hc (f + 1) a ha
      have h2 := bucketLive_count c hc (f + 1) b hb
      omega
    · intro a ha b hb
      have h1 := bucketLive_count c hc (f + 1) a ha
      have h2 := flattenAux_count_le c hc f b hb
      omega

end Flatten

/-! ## Helpers for concrete reachable states -/

section Concrete

variable {K V : Type} [DecidableEq K]

theorem goodOp_no_loader (op : Op K V) (h : ∀ f, op ≠ Op.setLoader f) :
    GoodOp op := by
  cases op <;> first | exact trivial | exact absurd rfl (h _)

theorem goodOps_no_loader (ops : List (Op K V))
    (h : ∀ f, Op.setLoader f ∉ ops) : GoodOps ops :=
  fun op hop => goodOp_no_loader op fun f hf => absurd (hf ▸ hop) (h f)

theorem updateFrequency_items (c : LFUCache K V) (k : K) :
    (updateFrequency c k).items = c.items := by
  unfold updateFrequency
  split
  · dsimp only
    split
    · split
      · rfl
      · rfl
    · rfl
  · rfl

end Concrete

/-! ## The claims -/

section Claims

/-- C1 (amended): for every sequence of `Add` operations on a cache of
capacity `C`, `Count() ≤ Capacity()` holds after every operation when
`C ≥ 1`; when `C = 0`, `Count()` never exceeds 1 and settles at exactly 1
after any insert — each insert evicts the previous single resident and
leaves the new item behind, so the count settles at 1, not at 0 as
claimed. -/
theorem claim_C1_capacity_bound {K V : Type} [DecidableEq K]
    (name : String) (cap : Nat) (adds : List (K × Nat × V)) :
    (1 ≤ cap →
      Count (applyAdds (NewLFUCache name cap : LFUCache K V) adds) ≤ (cap : Int)) ∧
    (cap = 0 →
      Count (applyAdds (NewLFUCache name cap : LFUCache K V) adds) ≤ 1 ∧
      (adds ≠ [] →
        Count (applyAdds (NewLFUCache name cap : LFUCache K V) adds) = 1)) := by
  have hclean := clean_applyAdds (NewLFUCache name cap : LFUCache K V) adds
    (clean_new name cap)
  have hcap : (applyAdds (NewLFUCache name cap : LFUCache K V) adds).capacity = cap := by
    rw [applyAdds_capacity]
    rfl
  have hb := hclean.sizeBound
  rw [hcap] at hb
  constructor
  · intro h1
    show (applyAdds (NewLFUCache name cap : LFUCache K V) adds).size ≤ (cap : Int)
    have hmax : max 1 (cap : Int) = (cap : Int) := by omega
    omega
  · intro h0
    subst h0
    constructor
    · show (applyAdds (NewLFUCache name 0 : LFUCache K V) adds).size ≤ 1
      have hmax : max 1 ((0 : Nat) : Int) = 1 := by simp
      omega
    · intro hne
      rcases List.eq_nil_or_concat adds with rfl | ⟨front, last, rfl⟩
      · exact absurd rfl hne
      · have hsplit : applyAdds (NewLFUCache name 0 : LFUCache K V) (front.concat last) =
            (Add (applyAdds (NewLFUCache name 0 : LFUCache K V) front)
              last.1 last.2.1 last.2.2).1 := by
          unfold applyAdds
          rw [List.concat_eq_append, List.foldl_append]
          rfl
        show Count _ = 1
        rw [hsplit]
        refine add_size_cap0 _ ?_ ?_ last.1 last.2.1 last.2.2
        · exact clean_applyAdds _ front (clean_new name 0)
        · rw [applyAdds_capacity]
          rfl

/-- Witness for C1: with capacity 2 the count stays at most 2 after three
inserts, and with capacity 0 the count is exactly 1 after two inserts. -/
theorem claim_C1_witness :
    Count (applyAdds (NewLFUCache "w1" 2 : LFUCache Nat Nat)
      [(1, 0, 10), (2, 0, 20), (3, 0, 30)]) ≤ 2 ∧
    Count (applyAdds (NewLFUCache "w1" 0 : LFUCache Nat Nat)
      [(1, 0, 10), (2, 0, 20)]) = 1 :=
  ⟨(claim_C1_capacity_bound "w1" 2 [(1, 0, 10), (2, 0, 20), (3, 0, 30)]).1
      (by omega),
   ((claim_C1_capacity_bound "w1" 0 [(1, 0, 10), (2, 0, 20)]).2 rfl).2
      (by simp)⟩

/-- Counterexample to C1 as stated: on a capacity-0 cache the count after
one insert is 1, not 0 — the pre-insert eviction finds an empty cache and
removes nothing, and the fresh item is then inserted. -/
theorem claim_C1_counterexample :
    Count (Add (NewLFUCache "z1" 0 : LFUCache Nat Nat) 5 0 55).1 = 1 ∧
    ¬ Count (Add (NewLFUCache "z1" 0 : LFUCache Nat Nat) 5 0 55).1 = 0 := by
  decide

/-- C4: after every operation, `minFrequency` points at a non-empty bucket
that has the smallest frequency among all non-empty buckets, whenever the
cache is non-empty (nothing is claimed for an empty cache). -/
theorem claim_C4_minFrequency {K V : Type} [DecidableEq K] (c : LFUCache K V)
    (h : Reachable c) (hne : c.items ≠ []) :
    ∃ node, alookup c.frequencies c.minFrequency = some node ∧
      node.items ≠ [] ∧
      ∀ f node', alookup c.frequencies f = some node' → node'.items ≠ [] →
        c.minFrequency ≤ f := by
  have hc := reachable_inv c h
  obtain ⟨k, it, hit⟩ : ∃ k it, alookup c.items k = some it := by
    cases hi : c.items with
    | nil => exact absurd hi hne
    | cons p rest =>
      cases p with
      | mk pk pv =>
        refine ⟨pk, pv, ?_⟩
        simp [alookup]
  obtain ⟨e, node, he, hn, hm⟩ := hc.resident k it hit
  obtain ⟨nodeM, hM, hMne⟩ :=
    hc.minBucket ⟨it.accessCount + 1, node, hn, List.ne_nil_of_mem hm⟩
  exact ⟨nodeM, hM, hMne, hc.minLe⟩

/-- Witness for C4 at a concrete reachable two-element state. -/
theorem claim_C4_witness :
    ∃ node, alookup (applyOps (NewLFUCache "w4" 3 : LFUCache Nat Nat)
        [Op.add 1 0 0, Op.add 2 0 0, Op.value 1]).frequencies
      (applyOps (NewLFUCache "w4" 3 : LFUCache Nat Nat)
        [Op.add 1 0 0, Op.add 2 0 0, Op.value 1]).minFrequency = some node ∧
      node.items ≠ [] ∧
      ∀ f node', alookup (applyOps (NewLFUCache "w4" 3 : LFUCache Nat Nat)
          [Op.add 1 0 0, Op.add 2 0 0, Op.value 1]).frequencies f = some node' →
        node'.items ≠ [] →
        (applyOps (NewLFUCache "w4" 3 : LFUCache Nat Nat)
          [Op.add 1 0 0, Op.add 2 0 0, Op.value 1]).minFrequency ≤ f :=
  claim_C4_minFrequency _
    ⟨"w4", 3, [Op.add 1 0 0, Op.add 2 0 0, Op.value 1],
      goodOps_no_loader _ (by intro f hf; simp at hf), rfl⟩
    (by decide)

/-- C10: the process-wide registry is first-writer-wins: a second request
under the same name returns the instance created first, ignoring the
capacity argument, so the returned cache keeps the capacity given at
first creation. -/
theorem claim_C10_registry {K V : Type} [DecidableEq K]
    (reg : List (String × LFUCache K V)) (name : String) (cap1 cap2 : Nat) :
    (∀ c0, alookup reg name = some c0 →
      LFUCacheByName reg name cap2 = (reg, c0)) ∧
    (alookup reg name = none →
      (LFUCacheByName (LFUCacheByName reg name cap1).1 name cap2).2 =
        NewLFUCache name cap1 ∧
      Capacity (LFUCacheByName (LFUCacheByName reg name cap1).1 name cap2).2 =
        cap1 ∧
      (LFUCacheByName (LFUCacheByName reg name cap1).1 name cap2).1 =
        (LFUCacheByName reg name cap1).1) := by
  constructor
  · intro c0 h0
    unfold LFUCacheByName
    rw [h0]
  · intro hnone
    have h1 : LFUCacheByName reg name cap1 =
        (aset reg name (NewLFUCache name cap1), NewLFUCache name cap1) := by
      unfold LFUCacheByName
      rw [hnone]
    have h2 : LFUCacheByName (aset reg name (NewLFUCache name cap1)) name cap2 =
        (aset reg name (NewLFUCache name cap1), NewLFUCache name cap1) := by
      unfold LFUCacheByName
      rw [alookup_aset_self]
    rw [h1]
    rw [h2]
    exact ⟨rfl, rfl, rfl⟩

/-- Witness for C10: creating "pages" with capacity 5 and asking again
with capacity 9 returns the capacity-5 instance. -/
theorem claim_C10_witness :
    Capacity (LFUCacheByName
      (LFUCacheByName ([] : List (String × LFUCache Nat Nat)) "pages" 5).1
      "pages" 9).2 = 5 :=
  ((claim_C10_registry ([] : List (String × LFUCache Nat Nat)) "pages" 5 9).2
    rfl).2.1

/-- C3: `Value`'s contract: a hit touches the entry and returns it with
no error; a miss with no loader fails with `KeyNotFound`; a miss whose
loader produces an entry inserts it as a fresh frequency-1 entry (with
eviction if at capacity) and returns it; a miss whose loader declines
fails with `KeyNotFoundOrLoadable`. -/
theorem claim_C3_value_contract {K V : Type} [DecidableEq K]
    (c : LFUCache K V) (k : K) :
    (∀ it, alookup c.items k = some it →
      (Value c k).2.1 = Except.ok (KeepAlive it) ∧
      (KeepAlive it).accessCount = it.accessCount + 1 ∧
      alookup (Value c k).1.items k = some (KeepAlive it)) ∧
    (alookup c.items k = none → c.loadData = none →
      (Value c k).2.1 = Except.error CacheError.keyNotFound ∧
      (Value c k).1 = c) ∧
    (∀ loader item, alookup c.items k = none → c.loadData = some loader →
      loader k = some item →
      (Value c k).2.1 = Except.ok item ∧
      alookup (Value c k).1.items k = some item ∧
      (Value c k).1.minFrequency = 1 ∧
      (let ce := if (c.capacity : Int) ≤ c.size then (evictLFU c).1 else c
       alookup (Value c k).1.keyToListElement k = some (ce.nextId, k) ∧
       bucketAt (Value c k).1 1 = (ce.nextId, k) :: bucketAt ce 1 ∧
       (Value c k).1.size = ce.size + 1)) ∧
    (∀ loader, alookup c.items k = none → c.loadData = some loader →
      loader k = none →
      (Value c k).2.1 = Except.error CacheError.keyNotFoundOrLoadable ∧
      (Value c k).1 = c) := by
  refine ⟨?_, ?_, ?_, ?_⟩
  · intro it hit
    unfold Value
    rw [hit]
    dsimp only
    refine ⟨rfl, rfl, ?_⟩
    rw [updateFrequency_items]
    exact alookup_aset_self c.items k (KeepAlive it)
  · intro hit hld
    unfold Value
    rw [hit, hld]
    exact ⟨rfl, rfl⟩
  · intro loader item hit hld hl
    unfold Value
    rw [hit]
    dsimp only
    rw [hld]
    dsimp only
    rw [hl]
    dsimp only
    unfold insertNew
    dsimp only
    by_cases hcap : (c.capacity : Int) ≤ c.size
    · have hce : (if (c.capacity : Int) ≤ c.size then (evictLFU c).1 else c) =
          (evictLFU c).1 := if_pos hcap
      have hins : (if (c.capacity : Int) ≤ c.size then evictLFU c else (c, [])) =
          evictLFU c := if_pos hcap
      rw [hce, hins]
      refine ⟨rfl, alookup_aset_self _ k item, rfl, ?_, ?_, rfl⟩
      · exact alookup_aset_self _ k _
      · show bucketAt _ 1 = _
        unfold bucketAt
        rw [alookup_aset_self]
        cases hx : alookup (evictLFU c).1.frequencies 1 <;>
          simp [hx, bucketAt]
    · have hce : (if (c.capacity : Int) ≤ c.size then (evictLFU c).1 else c) =
          c := if_neg hcap
      have hins : (if (c.capacity : Int) ≤ c.size then evictLFU c else (c, [])) =
          (c, []) := if_neg hcap
      rw [hce, hins]
      refine ⟨rfl, alookup_aset_self _ k item, rfl, ?_, ?_, rfl⟩
      · exact alookup_aset_self _ k _
      · show bucketAt _ 1 = _
        unfold bucketAt
        rw [alookup_aset_self]
        cases hx : alookup c.frequencies 1 <;>
          simp [hx, bucketAt]
  · intro loader hit hld hl
    unfold Value
    rw [hit]
    dsimp only
    rw [hld]
    dsimp only
    rw [hl]
    exact ⟨rfl, rfl⟩

/-- Witness for C3: a configured loader produces key 7 but not key 8; a
cache with no loader rejects key 5 with `KeyNotFound`. -/
theorem claim_C3_witness :
    (Value (SetDataLoader (NewLFUCache "w3" 3 : LFUCache Nat Nat)
      (some fun key => if key = 7 then some (NewCacheItem 7 0 77) else none))
      7).2.1 = Except.ok (NewCacheItem 7 0 77) ∧
    (Value (SetDataLoader (NewLFUCache "w3" 3 : LFUCache Nat Nat)
      (some fun key => if key = 7 then some (NewCacheItem 7 0 77) else none))
      8).2.1 = Except.error CacheError.keyNotFoundOrLoadable ∧
    (Value (NewLFUCache "w3b" 3 : LFUCache Nat Nat) 5).2.1 =
      Except.error CacheError.keyNotFound :=
  ⟨((claim_C3_value_contract
      (SetDataLoader (NewLFUCache "w3" 3 : LFUCache Nat Nat)
        (some fun key => if key = 7 then some (NewCacheItem 7 0 77) else none))
      7).2.2.1
      (fun key => if key = 7 then some (NewCacheItem 7 0 77) else none)
      (NewCacheItem 7 0 77) rfl rfl (by simp)).1,
   ((claim_C3_value_contract
      (SetDataLoader (NewLFUCache "w3" 3 : LFUCache Nat Nat)
        (some fun key => if key = 7 then some (NewCacheItem 7 0 77) else none))
      8).2.2.2
      (fun key => if key = 7 then some (NewCacheItem 7 0 77) else none)
      rfl rfl (by simp)).1,
   ((claim_C3_value_contract (NewLFUCache "w3b" 3 : LFUCache Nat Nat) 5).2.1
      rfl rfl).1⟩

/-- C6 (amended): a fresh `Add` creates the Entry with access counter 0
(not 1: `NewCacheItem` starts the counter at 0, and the entry lives in
the frequency-1 bucket, a key's bucket always being counter + 1), inserts
it into the primary map, pushes the key at the head of the frequency-1
bucket (creating it if absent), sets `minFrequency` to 1 unconditionally,
increments `size`, fires every registered added-item callback with the
new Entry after any eviction callbacks, and returns that Entry. -/
theorem claim_C6_fresh_insert {K V : Type} [DecidableEq K]
    (c : LFUCache K V) (k : K) (l : Nat) (d : V)
    (hnone : alookup c.items k = none) :
    (Add c k l d).2.1 = NewCacheItem k l d ∧
    (NewCacheItem k l d).accessCount = 0 ∧
    alookup (Add c k l d).1.items k = some (NewCacheItem k l d) ∧
    (Add c k l d).1.minFrequency = 1 ∧
    (let ce := if (c.capacity : Int) ≤ c.size then (evictLFU c).1 else c
     alookup (Add c k l d).1.keyToListElement k = some (ce.nextId, k) ∧
     bucketAt (Add c k l d).1 1 = (ce.nextId, k) :: bucketAt ce 1 ∧
     (Add c k l d).1.size = ce.size + 1) ∧
    (Add c k l d).2.2 =
      (if (c.capacity : Int) ≤ c.size then (evictLFU c).2 else []) ++
        List.replicate c.addedItem (Event.added (NewCacheItem k l d)) := by
  unfold Add
  rw [hnone]
  dsimp only
  unfold insertNew
  dsimp only
  by_cases hcap : (c.capacity : Int) ≤ c.size
  · have hce : (if (c.capacity : Int) ≤ c.size then (evictLFU c).1 else c) =
        (evictLFU c).1 := if_pos hcap
    have hins : (if (c.capacity : Int) ≤ c.size then evictLFU c else (c, [])) =
        evictLFU c := if_pos hcap
    have hevs : (if (c.capacity : Int) ≤ c.size then (evictLFU c).2 else []) =
        (evictLFU c).2 := if_pos hcap
    rw [hce, hins, hevs]
    refine ⟨rfl, rfl, alookup_aset_self _ k _, rfl, ⟨?_, ?_, rfl⟩, ?_⟩
    · exact alookup_aset_self _ k _
    · show bucketAt _ 1 = _
      unfold bucketAt
      rw [alookup_aset_self]
      cases hx : alookup (evictLFU c).1.frequencies 1 <;>
        simp [hx, bucketAt]
    · rw [(evictLFU_fields c).2.2.2]
  · have hce : (if (c.capacity : Int) ≤ c.size then (evictLFU c).1 else c) =
        c := if_neg hcap
    have hins : (if (c.capacity : Int) ≤ c.size then evictLFU c else (c, [])) =
        (c, []) := if_neg hcap
    have hevs : (if (c.capacity : Int) ≤ c.size then (evictLFU c).2 else []) =
        [] := if_neg hcap
    rw [hce, hins, hevs]
    refine ⟨rfl, rfl, alookup_aset_self _ k _, rfl, ⟨?_, ?_, rfl⟩, ?_⟩
    · exact alookup_aset_self _ k _
    · show bucketAt _ 1 = _
      unfold bucketAt
      rw [alookup_aset_self]
      cases hx : alookup c.frequencies 1 <;>
        simp [hx, bucketAt]
    · rfl

/-- Witness for C6 at a fresh cache with one registered added-item
callback. -/
theorem claim_C6_witness :
    (Add (SetAddedItemCallback (NewLFUCache "w6" 3 : LFUCache Nat Nat))
      7 0 42).2.1 = NewCacheItem 7 0 42 ∧
    (Add (SetAddedItemCallback (NewLFUCache "w6" 3 : LFUCache Nat Nat))
      7 0 42).1.minFrequency = 1 ∧
    (Add (SetAddedItemCallback (NewLFUCache "w6" 3 : LFUCache Nat Nat))
      7 0 42).2.2 =
      (if ((SetAddedItemCallback (NewLFUCache "w6" 3 : LFUCache Nat Nat)).capacity : Int) ≤
          (SetAddedItemCallback (NewLFUCache "w6" 3 : LFUCache Nat Nat)).size
        then (evictLFU (SetAddedItemCallback (NewLFUCache "w6" 3 : LFUCache Nat Nat))).2
        else []) ++
      List.replicate (SetAddedItemCallback (NewLFUCache "w6" 3 : LFUCache Nat Nat)).addedItem
        (Event.added (NewCacheItem 7 0 42)) :=
  ⟨(claim_C6_fresh_insert
      (SetAddedItemCallback (NewLFUCache "w6" 3 : LFUCache Nat Nat)) 7 0 42 rfl).1,
   (claim_C6_fresh_insert
      (SetAddedItemCallback (NewLFUCache "w6" 3 : LFUCache Nat Nat)) 7 0 42 rfl).2.2.2.1,
   (claim_C6_fresh_insert
      (SetAddedItemCallback (NewLFUCache "w6" 3 : LFUCache Nat Nat)) 7 0 42 rfl).2.2.2.2.2⟩

/-- Counterexample to C6 as stated: the Entry created by a fresh insert
carries access counter 0, not 1. -/
theorem claim_C6_counterexample :
    ((Add (NewLFUCache "c6" 3 : LFUCache Nat Nat) 7 0 42).2.1).accessCount = 0 ∧
    ¬ ((Add (NewLFUCache "c6" 3 : LFUCache Nat Nat) 7 0 42).2.1).accessCount = 1 := by
  decide

/-- C8: the code slip in `Delete`.  Deleting the sole, just-inserted key
succeeds and removes it from the primary map, yet the frequency-1 bucket
still contains the key's element afterwards: `Delete` attempts the
removal in the bucket numbered `AccessCount` (= 0 here) while the element
lives in bucket `AccessCount + 1`, so the removal is always a no-op and
the element is left behind as a stale bucket entry. -/
theorem claim_C8_delete_leaves_element :
    (Delete (Add (NewLFUCache "c8" 2 : LFUCache Nat Nat) 7 0 0).1 7).2.1 =
      Except.ok (NewCacheItem 7 0 0) ∧
    ExistsKey (Delete (Add (NewLFUCache "c8" 2 : LFUCache Nat Nat) 7 0 0).1 7).1
      7 = false ∧
    (Delete (Add (NewLFUCache "c8" 2 : LFUCache Nat Nat) 7 0 0).1 7).1.size = 0 ∧
    (bucketAt (Delete (Add (NewLFUCache "c8" 2 : LFUCache Nat Nat) 7 0 0).1 7).1
      1).map Prod.snd = [7] :=
  ⟨rfl, rfl, rfl, rfl⟩

/-- C2 (amended): eviction on a non-empty cache removes exactly the list
element at the *tail* of the bucket at `minFrequency`, fires every
registered about-to-delete callback with whatever the primary map holds
for that element's key (the Entry when the key is resident, but nil when
the element is a stale leftover of `Delete`), erases that key from the
primary and position maps, and decrements `size`; eviction on a cache
with `size = 0` is a no-op.  Because stale elements can sit at the tail,
eviction is not guaranteed to remove a resident key. -/
theorem claim_C2_evict_selects_tail {K V : Type} [DecidableEq K]
    (c : LFUCache K V) (hr : Reachable c) :
    (c.size = 0 → evictLFU c = (c, [])) ∧
    (¬ c.size = 0 → ∃ minNode element,
      alookup c.frequencies c.minFrequency = some minNode ∧
      minNode.items.getLast? = some element ∧
      (evictLFU c).1 =
        { c with
          frequencies := aset c.frequencies c.minFrequency
            { minNode with items := minNode.items.erase element }
          items := aerase c.items element.2
          keyToListElement := aerase c.keyToListElement element.2
          size := c.size - 1 } ∧
      (evictLFU c).2 = List.replicate c.aboutToDeleteItem
        (Event.aboutToDelete (alookup c.items element.2)) ∧
      alookup (evictLFU c).1.items element.2 = none) := by
  have hinv := reachable_inv c hr
  refine ⟨fun hs => evictLFU_size_zero c hs, fun hs => ?_⟩
  obtain ⟨minNode, element, hm, hl, he⟩ := evict_run c hinv hs
  refine ⟨minNode, element, hm, hl, ?_, ?_, ?_⟩
  · rw [he]
  · rw [he]
  · rw [he]
    show alookup (aerase c.items element.2) element.2 = none
    exact alookup_aerase_self _ _ hinv.wfItems

/-- Witness for C2 at a reachable capacity-2 state holding keys 1 and 2
(both untouched): the next insert evicts key 1 (inserted first), not
key 2. -/
theorem claim_C2_witness :
    (¬ (applyOps (NewLFUCache "w2" 2 : LFUCache Nat Nat)
        [Op.add 1 0 0, Op.add 2 0 0]).size = 0 →
      ∃ minNode element,
        alookup (applyOps (NewLFUCache "w2" 2 : LFUCache Nat Nat)
            [Op.add 1 0 0, Op.add 2 0 0]).frequencies
          (applyOps (NewLFUCache "w2" 2 : LFUCache Nat Nat)
            [Op.add 1 0 0, Op.add 2 0 0]).minFrequency = some minNode ∧
        minNode.items.getLast? = some element ∧
        (evictLFU (applyOps (NewLFUCache "w2" 2 : LFUCache Nat Nat)
            [Op.add 1 0 0, Op.add 2 0 0])).1 =
          { applyOps (NewLFUCache "w2" 2 : LFUCache Nat Nat)
              [Op.add 1 0 0, Op.add 2 0 0] with
            frequencies := aset (applyOps (NewLFUCache "w2" 2 : LFUCache Nat Nat)
                [Op.add 1 0 0, Op.add 2 0 0]).frequencies
              (applyOps (NewLFUCache "w2" 2 : LFUCache Nat Nat)
                [Op.add 1 0 0, Op.add 2 0 0]).minFrequency
              { minNode with items := minNode.items.erase element }
            items := aerase (applyOps (NewLFUCache "w2" 2 : LFUCache Nat Nat)
                [Op.add 1 0 0, Op.add 2 0 0]).items element.2
            keyToListElement := aerase (applyOps (NewLFUCache "w2" 2 : LFUCache Nat Nat)
                [Op.add 1 0 0, Op.add 2 0 0]).keyToListElement element.2
            size := (applyOps (NewLFUCache "w2" 2 : LFUCache Nat Nat)
                [Op.add 1 0 0, Op.add 2 0 0]).size - 1 } ∧
        (evictLFU (applyOps (NewLFUCache "w2" 2 : LFUCache Nat Nat)
            [Op.add 1 0 0, Op.add 2 0 0])).2 =
          List.replicate (applyOps (NewLFUCache "w2" 2 : LFUCache Nat Nat)
              [Op.add 1 0 0, Op.add 2 0 0]).aboutToDeleteItem
            (Event.aboutToDelete (alookup (applyOps (NewLFUCache "w2" 2 : LFUCache Nat Nat)
              [Op.add 1 0 0, Op.add 2 0 0]).items element.2)) ∧
        alookup (evictLFU (applyOps (NewLFUCache "w2" 2 : LFUCache Nat Nat)
            [Op.add 1 0 0, Op.add 2 0 0])).1.items element.2 = none) ∧
    alookup ((Add (applyOps (NewLFUCache "w2" 2 : LFUCache Nat Nat)
        [Op.add 1 0 0, Op.add 2 0 0]) 3 0 0).1).items 1 = none ∧
    (alookup ((Add (applyOps (NewLFUCache "w2" 2 : LFUCache Nat Nat)
        [Op.add 1 0 0, Op.add 2 0 0]) 3 0 0).1).items 2).isSome = true :=
  ⟨(claim_C2_evict_selects_tail _
      ⟨"w2", 2, [Op.add 1 0 0, Op.add 2 0 0],
        goodOps_no_loader _ (by intro f hf; simp at hf), rfl⟩).2,
   by decide, by decide⟩

/-- Counterexample to C2 as stated: on a reachable state whose minimum
bucket's tail is a stale leftover of `Delete`, eviction fires the
about-to-delete callback with nil instead of an Entry, removes no
resident key (the primary map is unchanged), and still decrements
`size`. -/
theorem claim_C2_counterexample :
    ¬ (applyOps (NewLFUCache "c2x" 2 : LFUCache Nat Nat)
        [Op.setDeleteCallback, Op.add 1 0 0, Op.delete 1,
         Op.add 2 0 0, Op.add 3 0 0]).size = 0 ∧
    (applyOps (NewLFUCache "c2x" 2 : LFUCache Nat Nat)
        [Op.setDeleteCallback, Op.add 1 0 0, Op.delete 1,
         Op.add 2 0 0, Op.add 3 0 0]).aboutToDeleteItem = 1 ∧
    (evictLFU (applyOps (NewLFUCache "c2x" 2 : LFUCache Nat Nat)
        [Op.setDeleteCallback, Op.add 1 0 0, Op.delete 1,
         Op.add 2 0 0, Op.add 3 0 0])).2 = [Event.aboutToDelete none] ∧
    (evictLFU (applyOps (NewLFUCache "c2x" 2 : LFUCache Nat Nat)
        [Op.setDeleteCallback, Op.add 1 0 0, Op.delete 1,
         Op.add 2 0 0, Op.add 3 0 0])).1.items =
      (applyOps (NewLFUCache "c2x" 2 : LFUCache Nat Nat)
        [Op.setDeleteCallback, Op.add 1 0 0, Op.delete 1,
         Op.add 2 0 0, Op.add 3 0 0]).items ∧
    (evictLFU (applyOps (NewLFUCache "c2x" 2 : LFUCache Nat Nat)
        [Op.setDeleteCallback, Op.add 1 0 0, Op.delete 1,
         Op.add 2 0 0, Op.add 3 0 0])).1.size =
      (applyOps (NewLFUCache "c2x" 2 : LFUCache Nat Nat)
        [Op.setDeleteCallback, Op.add 1 0 0, Op.delete 1,
         Op.add 2 0 0, Op.add 3 0 0]).size - 1 := by
  decide

/-- C5 (amended): on every reachable state, every resident key has a
unique live list element, registered in the position map, and that
element sits in exactly one bucket: the bucket numbered access counter
*plus one* (not the counter itself — `updateFrequency` files a
counter-`n` entry under frequency `n + 1`).  Stale elements left behind
by `Delete` can additionally carry the same key in other buckets. -/
theorem claim_C5_bucket_membership {K V : Type} [DecidableEq K]
    (c : LFUCache K V) (hr : Reachable c) (k : K) (it : CacheItem K V)
    (hit : alookup c.items k = some it) :
    ∃ e node, alookup c.keyToListElement k = some e ∧ e.2 = k ∧
      alookup c.frequencies (it.accessCount + 1) = some node ∧
      e ∈ node.items ∧
      ∀ f node', alookup c.frequencies f = some node' → e ∈ node'.items →
        f = it.accessCount + 1 := by
  have hinv := reachable_inv c hr
  obtain ⟨e, node, he, hn, hm⟩ := hinv.resident k it hit
  refine ⟨e, node, he, hinv.k2eVal k e he, hn, hm, ?_⟩
  intro f node' hf hm'
  by_contra hne
  exact hinv.idsDisjoint f (it.accessCount + 1) node' node e e hne hf hn hm' hm rfl

/-- Witness for C5: on a reachable state where key 1 has been inserted
and touched once (counter 1), its element lies in the frequency-2 bucket
and only there. -/
theorem claim_C5_witness :
    ∃ e node, alookup (applyOps (NewLFUCache "w5" 3 : LFUCache Nat Nat)
        [Op.add 1 0 0, Op.value 1]).keyToListElement 1 = some e ∧
      e.2 = 1 ∧
      alookup (applyOps (NewLFUCache "w5" 3 : LFUCache Nat Nat)
          [Op.add 1 0 0, Op.value 1]).frequencies
        ((⟨1, 0, 0, 1⟩ : CacheItem Nat Nat).accessCount + 1) = some node ∧
      e ∈ node.items ∧
      ∀ f node', alookup (applyOps (NewLFUCache "w5" 3 : LFUCache Nat Nat)
          [Op.add 1 0 0, Op.value 1]).frequencies f = some node' →
        e ∈ node'.items → f = (⟨1, 0, 0, 1⟩ : CacheItem Nat Nat).accessCount + 1 :=
  claim_C5_bucket_membership _
    ⟨"w5", 3, [Op.add 1 0 0, Op.value 1],
      goodOps_no_loader _ (by intro f hf; simp at hf), rfl⟩
    1 ⟨1, 0, 0, 1⟩ (by decide)

/-- Counterexample to C5 as stated: a freshly inserted key has counter 0
yet its element lives in the frequency-1 bucket (there is no bucket 0 at
all), so the bucket number is the counter plus one, not the counter; and
after insert–touch–delete–reinsert, key 1 appears in two buckets at once
(its stale element survives in bucket 2), so "exactly one bucket" also
fails. -/
theorem claim_C5_counterexample :
    ((alookup ((Add (NewLFUCache "c5" 3 : LFUCache Nat Nat) 1 0 0).1).items 1).map
      AccessCount = some 0 ∧
     (bucketAt ((Add (NewLFUCache "c5" 3 : LFUCache Nat Nat) 1 0 0).1) 1).map
      Prod.snd = [1] ∧
     alookup ((Add (NewLFUCache "c5" 3 : LFUCache Nat Nat) 1 0 0).1).frequencies 0 =
      none) ∧
    ((bucketAt (applyOps (NewLFUCache "c5b" 3 : LFUCache Nat Nat)
        [Op.add 1 0 0, Op.value 1, Op.delete 1, Op.add 1 0 0]) 1).map Prod.snd =
      [1] ∧
     (bucketAt (applyOps (NewLFUCache "c5b" 3 : LFUCache Nat Nat)
        [Op.add 1 0 0, Op.value 1, Op.delete 1, Op.add 1 0 0]) 2).map Prod.snd =
      [1] ∧
     (alookup (applyOps (NewLFUCache "c5b" 3 : LFUCache Nat Nat)
        [Op.add 1 0 0, Op.value 1, Op.delete 1, Op.add 1 0 0]).items 1).map
      AccessCount = some 0) := by
  decide

/-- C7 (amended): a touch on a resident key with counter `old` (as
performed by a `Value` hit) sets the counter to exactly `old + 1`,
removes the key's list element from the bucket numbered `old + 1` (not
`old`: a counter-`n` key lives in bucket `n + 1`), increments
`minFrequency` when that bucket became empty and `old + 1` equalled
`minFrequency`, and pushes a fresh element for the key at the head of
the bucket numbered `old + 2` (creating it if absent); an update-`Add`
on a resident key likewise increments the counter by exactly 1. -/
theorem claim_C7_touch {K V : Type} [DecidableEq K]
    (c : LFUCache K V) (hr : Reachable c) (k : K) (it : CacheItem K V)
    (hit : alookup c.items k = some it) :
    ∃ e, alookup c.keyToListElement k = some e ∧
      e ∈ bucketAt c (it.accessCount + 1) ∧
      alookup (Value c k).1.items k = some (KeepAlive it) ∧
      (KeepAlive it).accessCount = it.accessCount + 1 ∧
      alookup (Value c k).1.keyToListElement k = some (c.nextId, k) ∧
      bucketAt (Value c k).1 (it.accessCount + 2) =
        (c.nextId, k) :: bucketAt c (it.accessCount + 2) ∧
      bucketAt (Value c k).1 (it.accessCount + 1) =
        (bucketAt c (it.accessCount + 1)).erase e ∧
      (Value c k).1.minFrequency =
        (if ((bucketAt c (it.accessCount + 1)).erase e).length = 0 ∧
            it.accessCount + 1 = c.minFrequency
         then c.minFrequency + 1 else c.minFrequency) ∧
      ∀ l d, ((Add c k l d).2.1).accessCount = it.accessCount + 1 ∧
        alookup (Add c k l d).1.items k = some ((Add c k l d).2.1) := by
  have hinv := reachable_inv c hr
  obtain ⟨e, node, he, hn, hm⟩ := hinv.resident k it hit
  have hb := bucketAt_of_lookup c (it.accessCount + 1) node hn
  have hval : (Value c k).1 =
      updateFrequency { c with items := aset c.items k (KeepAlive it) } k := by
    unfold Value
    rw [hit]
  have hspec := updateFrequency_spec
    { c with items := aset c.items k (KeepAlive it) } k (KeepAlive it) e node
    (alookup_aset_self c.items k (KeepAlive it)) he hn
  refine ⟨e, he, hb ▸ hm, ?_, rfl, ?_, ?_, ?_, ?_, ?_⟩
  · rw [hval, hspec]
    exact alookup_aset_self c.items k (KeepAlive it)
  · rw [hval, hspec]
    exact alookup_aset_self c.keyToListElement k (c.nextId, k)
  · rw [hval, hspec]
    dsimp only
    unfold bucketAt
    dsimp only
    rw [show AccessCount (KeepAlive it) + 1 = it.accessCount + 2 from rfl]
    rw [alookup_aset_self]
    dsimp only
    rw [show AccessCount (KeepAlive it) = it.accessCount + 1 from rfl]
    rw [alookup_aset_ne c.frequencies _ (by omega)]
    cases hx : alookup c.frequencies (it.accessCount + 2) <;>
      simp [hx, bucketAt]
  · rw [hval, hspec]
    dsimp only
    unfold bucketAt
    dsimp only
    rw [show AccessCount (KeepAlive it) + 1 = it.accessCount + 2 from rfl]
    rw [alookup_aset_ne _ _ (by omega)]
    rw [show AccessCount (KeepAlive it) = it.accessCount + 1 from rfl]
    rw [alookup_aset_self]
    dsimp only
    rw [hn]
  · rw [hval, hspec]
    dsimp only
    show (if (node.items.erase e).length = 0 ∧
          it.accessCount + 1 = c.minFrequency
        then c.minFrequency + 1 else c.minFrequency) = _
    rw [hb]
  · intro l d
    unfold Add
    rw [hit]
    dsimp only
    constructor
    · rfl
    · rw [updateFrequency_items]
      exact alookup_aset_self c.items k _

/-- Witness for C7 at a reachable one-element state: touching key 1
(counter 0) moves its element from bucket 1 to the head of bucket 2 and
sets the counter to 1. -/
theorem claim_C7_witness :
    ∃ e, alookup (applyOps (NewLFUCache "w7" 3 : LFUCache Nat Nat)
        [Op.add 1 0 0]).keyToListElement 1 = some e ∧
      e ∈ bucketAt (applyOps (NewLFUCache "w7" 3 : LFUCache Nat Nat)
        [Op.add 1 0 0]) ((⟨1, 0, 0, 0⟩ : CacheItem Nat Nat).accessCount + 1) ∧
      alookup (Value (applyOps (NewLFUCache "w7" 3 : LFUCache Nat Nat)
        [Op.add 1 0 0]) 1).1.items 1 =
        some (KeepAlive (⟨1, 0, 0, 0⟩ : CacheItem Nat Nat)) ∧
      (KeepAlive (⟨1, 0, 0, 0⟩ : CacheItem Nat Nat)).accessCount =
        (⟨1, 0, 0, 0⟩ : CacheItem Nat Nat).accessCount + 1 ∧
      alookup (Value (applyOps (NewLFUCache "w7" 3 : LFUCache Nat Nat)
        [Op.add 1 0 0]) 1).1.keyToListElement 1 =
        some ((applyOps (NewLFUCache "w7" 3 : LFUCache Nat Nat)
          [Op.add 1 0 0]).nextId, 1) ∧
      bucketAt (Value (applyOps (NewLFUCache "w7" 3 : LFUCache Nat Nat)
          [Op.add 1 0 0]) 1).1
        ((⟨1, 0, 0, 0⟩ : CacheItem Nat Nat).accessCount + 2) =
        ((applyOps (NewLFUCache "w7" 3 : LFUCache Nat Nat)
            [Op.add 1 0 0]).nextId, 1) ::
          bucketAt (applyOps (NewLFUCache "w7" 3 : LFUCache Nat Nat)
            [Op.add 1 0 0]) ((⟨1, 0, 0, 0⟩ : CacheItem Nat Nat).accessCount + 2) ∧
      bucketAt (Value (applyOps (NewLFUCache "w7" 3 : LFUCache Nat Nat)
          [Op.add 1 0 0]) 1).1
        ((⟨1, 0, 0, 0⟩ : CacheItem Nat Nat).accessCount + 1) =
        (bucketAt (applyOps (NewLFUCache "w7" 3 : LFUCache Nat Nat)
          [Op.add 1 0 0]) ((⟨1, 0, 0, 0⟩ : CacheItem Nat Nat).accessCount + 1)).erase
          e ∧
      (Value (applyOps (NewLFUCache "w7" 3 : LFUCache Nat Nat)
        [Op.add 1 0 0]) 1).1.minFrequency =
        (if ((bucketAt (applyOps (NewLFUCache "w7" 3 : LFUCache Nat Nat)
              [Op.add 1 0 0]) ((⟨1, 0, 0, 0⟩ : CacheItem Nat Nat).accessCount + 1)).erase
            e).length = 0 ∧
            (⟨1, 0, 0, 0⟩ : CacheItem Nat Nat).accessCount + 1 =
              (applyOps (NewLFUCache "w7" 3 : LFUCache Nat Nat)
                [Op.add 1 0 0]).minFrequency
         then (applyOps (NewLFUCache "w7" 3 : LFUCache Nat Nat)
            [Op.add 1 0 0]).minFrequency + 1
         else (applyOps (NewLFUCache "w7" 3 : LFUCache Nat Nat)
            [Op.add 1 0 0]).minFrequency) ∧
      ∀ l d, ((Add (applyOps (NewLFUCache "w7" 3 : LFUCache Nat Nat)
          [Op.add 1 0 0]) 1 l d).2.1).accessCount =
          (⟨1, 0, 0, 0⟩ : CacheItem Nat Nat).accessCount + 1 ∧
        alookup (Add (applyOps (NewLFUCache "w7" 3 : LFUCache Nat Nat)
            [Op.add 1 0 0]) 1 l d).1.items 1 =
          some ((Add (applyOps (NewLFUCache "w7" 3 : LFUCache Nat Nat)
            [Op.add 1 0 0]) 1 l d).2.1) :=
  claim_C7_touch _
    ⟨"w7", 3, [Op.add 1 0 0],
      goodOps_no_loader _ (by intro f hf; simp at hf), rfl⟩
    1 ⟨1, 0, 0, 0⟩ (by decide)

/-- Counterexample to C7 as stated: after one touch, key 1's counter is
1, yet bucket 1 is empty and the key sits in bucket 2 — the claim's
bucket numbering (bucket = counter) is off by one. -/
theorem claim_C7_counterexample :
    (alookup ((Value ((Add (NewLFUCache "c7" 3 : LFUCache Nat Nat) 1 0 0).1)
      1).1).items 1).map AccessCount = some 1 ∧
    (bucketAt ((Value ((Add (NewLFUCache "c7" 3 : LFUCache Nat Nat) 1 0 0).1)
      1).1) 1).map Prod.snd = [] ∧
    (bucketAt ((Value ((Add (NewLFUCache "c7" 3 : LFUCache Nat Nat) 1 0 0).1)
      1).1) 2).map Prod.snd = [1] := by
  decide

/-- C9 (amended): on every state reachable without `Delete`,
`MostAccessed n` returns exactly the first `n` entries of the
descending-frequency traversal (buckets walked from the highest
frequency level ever created down to 1, each bucket front — most
recently touched — first), hence at most `n` entries in non-increasing
access-count order.  After a `Delete`, stale bucket elements can make
the result repeat keys and break the ordering. -/
theorem claim_C9_mostAccessed {K V : Type} [DecidableEq K]
    (c : LFUCache K V) (hr : CleanReachable c) (n : Nat) :
    MostAccessed c n = (flattenDesc c).take n ∧
    (MostAccessed c n).length ≤ n ∧
    ((MostAccessed c n).map AccessCount).Pairwise (fun a b => b ≤ a) := by
  have hc := cleanReachable_cleanInv c hr
  refine ⟨mostAccessed_eq_take c n, ?_, ?_⟩
  · rw [mostAccessed_eq_take]
    exact List.length_take_le n _
  · rw [mostAccessed_eq_take, List.pairwise_map]
    exact List.Pairwise.sublist (List.take_sublist n _)
      (flattenAux_sorted c hc c.frequencies.length)

/-- Witness for C9 on the spec's own example (counters A:3, B:1, C:2
under keys 1, 2, 3): `MostAccessed 3` yields A, C, B. -/
theorem claim_C9_witness :
    (MostAccessed (applyOps (NewLFUCache "w9" 3 : LFUCache Nat Nat)
        [Op.add 1 0 0, Op.add 2 0 0, Op.add 3 0 0, Op.value 1, Op.value 1,
         Op.value 1, Op.value 2, Op.value 3, Op.value 3]) 3 =
      (flattenDesc (applyOps (NewLFUCache "w9" 3 : LFUCache Nat Nat)
        [Op.add 1 0 0, Op.add 2 0 0, Op.add 3 0 0, Op.value 1, Op.value 1,
         Op.value 1, Op.value 2, Op.value 3, Op.value 3])).take 3 ∧
     (MostAccessed (applyOps (NewLFUCache "w9" 3 : LFUCache Nat Nat)
        [Op.add 1 0 0, Op.add 2 0 0, Op.add 3 0 0, Op.value 1, Op.value 1,
         Op.value 1, Op.value 2, Op.value 3, Op.value 3]) 3).length ≤ 3 ∧
     ((MostAccessed (applyOps (NewLFUCache "w9" 3 : LFUCache Nat Nat)
        [Op.add 1 0 0, Op.add 2 0 0, Op.add 3 0 0, Op.value 1, Op.value 1,
         Op.value 1, Op.value 2, Op.value 3, Op.value 3]) 3).map
       AccessCount).Pairwise (fun a b => b ≤ a)) ∧
    (MostAccessed (applyOps (NewLFUCache "w9" 3 : LFUCache Nat Nat)
        [Op.add 1 0 0, Op.add 2 0 0, Op.add 3 0 0, Op.value 1, Op.value 1,
         Op.value 1, Op.value 2, Op.value 3, Op.value 3]) 3).map
      (fun it => (it.key, it.accessCount)) = [(1, 3), (3, 2), (2, 1)] :=
  ⟨claim_C9_mostAccessed _
    ⟨"w9", 3,
      [Op.add 1 0 0, Op.add 2 0 0, Op.add 3 0 0, Op.value 1, Op.value 1,
       Op.value 1, Op.value 2, Op.value 3, Op.value 3],
      goodOps_no_loader _ (by intro f hf; simp at hf),
      by intro k hk; simp at hk, rfl⟩ 3,
   by decide⟩

/-- Counterexample to C9 as stated: after touching key 1 twice, deleting
it and re-inserting it, `MostAccessed 2` returns key 1 (counter 0) before
key 2 (counter 1) — a stale bucket element makes the output violate the
claimed descending order. -/
theorem claim_C9_counterexample :
    (MostAccessed (applyOps (NewLFUCache "c9" 5 : LFUCache Nat Nat)
        [Op.add 1 0 0, Op.value 1, Op.value 1, Op.delete 1,
         Op.add 1 0 0, Op.add 2 0 0, Op.value 2]) 2).map
      (fun it => (it.key, it.accessCount)) = [(1, 0), (2, 1)] ∧
    ¬ ((MostAccessed (applyOps (NewLFUCache "c9" 5 : LFUCache Nat Nat)
        [Op.add 1 0 0, Op.value 1, Op.value 1, Op.delete 1,
         Op.add 1 0 0, Op.add 2 0 0, Op.value 2]) 2).map
      AccessCount).Pairwise (fun a b => b ≤ a) := by
  decide

end Claims

end Cache2go
